import Mathlib

/-
Verification of the heapstore slotted-page / heap-file / storage-manager layer
and the aggregate operator state machine of the CrustyDB-based repository.

The Rust sources are shallowly embedded:
  * `Page` (heapstore/src/page.rs) with its `Header`; the `HashMap<SlotId, Vec<SlotId>>`
    of slot entries is embedded as an association list `List (Nat × Nat × Nat)`
    of `(slot_id, offset, length)` triples (a deterministic iteration order for
    the hash map; every place the source iterates the map, the computed result
    is order independent under the well-formedness assumptions used).
  * the page byte buffer `data : [u8; PAGE_SIZE]` is embedded as a total
    function `Nat → Nat`; all reads performed by the source stay below
    `PAGE_SIZE`, so the values outside that range are never observed.
  * methods taking `&mut self` become functions `Page → args → result × Page`.
  * a Rust `panic!` / `Option::unwrap` failure is made explicit in the result
    type (`AddOutcome.panic`, `DelOutcome.panic`, `Option` results, ...).
  * machine integers (u16 slot ids, offsets, lengths, usize sizes) are embedded
    as `Nat`; on the reachable states considered here all values stay far below
    2^16 so no wrap-around occurs, and the well-formedness predicates record
    the bounds that the theorems need.
-/

set_option maxRecDepth 100000

/-- Page size constant `common::PAGE_SIZE` used by the repository (4096 bytes). -/
def PAGE_SIZE : Nat := 4096

/-! ## Association-list embedding of `Header.entries : HashMap<SlotId, Vec<SlotId>>`
An entry is `(slot_id, offset, length)`. -/

/-- Test for `entries.contains_key(&k)`. -/
def entriesContains : List (Nat × Nat × Nat) → Nat → Bool
  | [], _ => false
  | e :: rest, k => e.1 = k || entriesContains rest k

/-- Lookup `entries.get(&k)`, returning the `(offset, length)` pair. -/
def entriesGet : List (Nat × Nat × Nat) → Nat → Option (Nat × Nat)
  | [], _ => none
  | e :: rest, k => if e.1 = k then some e.2 else entriesGet rest k

/-- Embedding of `entries.insert(k, vec![off, len])`: replace the value when the
key is present (HashMap semantics), otherwise append the new binding. -/
def entriesInsert (es : List (Nat × Nat × Nat)) (k off len : Nat) : List (Nat × Nat × Nat) :=
  if entriesContains es k then
    es.map (fun e => if e.1 = k then (k, off, len) else e)
  else
    es ++ [(k, off, len)]

/-- Embedding of `entries.remove(&k)` (the removed value is read separately via
`entriesGet`). -/
def entriesRemove (es : List (Nat × Nat × Nat)) (k : Nat) : List (Nat × Nat × Nat) :=
  es.filter (fun e => ¬ e.1 = k)

/-- Keys of the entries map. -/
def entriesKeys (es : List (Nat × Nat × Nat)) : List Nat :=
  es.map (fun e => e.1)

/-- Embedding of `keys.iter().max()` (the source only calls it on a non-empty
map; on an empty list this returns 0). -/
def entriesMaxKey (es : List (Nat × Nat × Nat)) : Nat :=
  (entriesKeys es).foldl Nat.max 0

/-! ## Byte-buffer primitives -/

/-- Embedding of `data[start..start+bytes.len()].clone_from_slice(&bytes)`. -/
def writeRange (f : Nat → Nat) (start : Nat) (bytes : List Nat) : Nat → Nat :=
  fun i => if start ≤ i ∧ i < start + bytes.length then bytes.getD (i - start) 0 else f i

/-- Embedding of reading `data[start..start+len]` into a fresh vector. -/
def readRange (f : Nat → Nat) (start len : Nat) : List Nat :=
  (List.range len).map (fun i => f (start + i))

/-- Embedding of `data[start..stop].rotate_left(k)`:
the slice element at index `i` of the result is the old element at index
`(i + k) mod (stop - start)` of the slice. -/
def rotateRange (f : Nat → Nat) (start stop k : Nat) : Nat → Nat :=
  fun i =>
    if start ≤ i ∧ i < stop then f (start + ((i - start + k) % (stop - start)))
    else f i

/-! ## The `Page` structure (heapstore/src/page.rs) -/

/-- Embedding of `Header` from page.rs. -/
structure Header where
  page_id : Nat
  number_of_slots : Nat
  furthest_slot : Option Nat
  max_slot_id : Nat
  entries : List (Nat × Nat × Nat)

/-- Embedding of `Page` from page.rs. -/
structure Page where
  header : Header
  data : Nat → Nat

/-- Embedding of `Page::new(page_id)`. -/
def pageNew (pid : Nat) : Page :=
  { header :=
      { page_id := pid
        number_of_slots := 0
        furthest_slot := none
        max_slot_id := 0
        entries := [] }
    data := fun _ => 0 }

/-- Embedding of `Page::get_page_id`. -/
def getPageId (p : Page) : Nat :=
  p.header.page_id

/-- Embedding of `Page::find_furthest_slot`. -/
def findFurthestSlot (p : Page) : Option Nat :=
  p.header.furthest_slot

/-- Embedding of `Page::get_header_size`: `6 * entries.len() + 8`. -/
def getHeaderSize (p : Page) : Nat :=
  6 * p.header.entries.length + 8

/-- Embedding of `Page::get_largest_free_contiguous_space`.
`none` models the panic of `find_furthest_slot().unwrap()` /
`entries.get(..).unwrap()` on a corrupt header. -/
def getLargestFreeContiguousSpace (p : Page) : Option Nat :=
  if p.header.entries.length = 0 then
    some (PAGE_SIZE - getHeaderSize p)
  else
    match p.header.furthest_slot with
    | none => none
    | some fs =>
      match entriesGet p.header.entries fs with
      | none => none
      | some e => some (PAGE_SIZE - (getHeaderSize p + (e.1 + e.2)))

/-- Largest free contiguous space with default 0 (the source value whenever the
unwraps cannot panic). -/
def freeD (p : Page) : Nat :=
  (getLargestFreeContiguousSpace p).getD 0

/-- Embedding of `Page::get_first_free_space`: the first slot id in `0..max`
that is not a key of `entries` (`none` when the map is empty or has no gap). -/
def getFirstFreeSpace (p : Page) : Option Nat :=
  if p.header.entries.length = 0 then none
  else (List.range (entriesMaxKey p.header.entries)).find?
    (fun i => ¬ entriesContains p.header.entries i)

/-- End position of the record of the furthest slot (`offset + length` of the
entry `furthest_slot` points at; 0 when absent). -/
def packedEnd (p : Page) : Nat :=
  match p.header.furthest_slot with
  | none => 0
  | some fs =>
    match entriesGet p.header.entries fs with
    | none => 0
    | some e => e.1 + e.2

/-- Outcome of `Page::add_value`: `panic` models an `unwrap` failure, `full`
models the `None` ("no room") return, `ok slot` the `Some(slot)` return. -/
inductive AddOutcome where
  | panic : AddOutcome
  | full : AddOutcome
  | ok : Nat → AddOutcome
deriving DecidableEq, Repr

/-- Embedding of `Page::add_value` (outcome together with the updated page;
the page is returned unchanged on the `full` and `panic` paths, which return
before any mutation in the source). -/
def addValueFull (p : Page) (bytes : List Nat) : AddOutcome × Page :=
  let len := bytes.length
  let firstFree := getFirstFreeSpace p
  match getLargestFreeContiguousSpace p with
  | none => (AddOutcome.panic, p)
  | some remaining =>
    if len + 6 ≥ remaining then (AddOutcome.full, p)
    else
      match firstFree with
      | some id =>
        match p.header.furthest_slot with
        | none => (AddOutcome.panic, p)
        | some fs =>
          match entriesGet p.header.entries fs with
          | none => (AddOutcome.panic, p)
          | some e =>
            let pos := e.1 + e.2
            (AddOutcome.ok id,
             { header :=
                 { page_id := p.header.page_id
                   number_of_slots := p.header.number_of_slots + 1
                   furthest_slot := some id
                   max_slot_id := Nat.max p.header.max_slot_id id
                   entries := entriesInsert p.header.entries id pos len }
               data := writeRange p.data pos bytes })
      | none =>
        match p.header.furthest_slot with
        | none =>
          (AddOutcome.ok 0,
           { header :=
               { page_id := p.header.page_id
                 number_of_slots := p.header.number_of_slots + 1
                 furthest_slot := some 0
                 max_slot_id := p.header.max_slot_id
                 entries := entriesInsert p.header.entries 0 0 len }
             data := writeRange p.data 0 bytes })
        | some fs =>
          match entriesGet p.header.entries fs with
          | none => (AddOutcome.panic, p)
          | some e =>
            let currentSlotId := p.header.number_of_slots
            let pos := e.1 + e.2
            (AddOutcome.ok currentSlotId,
             { header :=
                 { page_id := p.header.page_id
                   number_of_slots := p.header.number_of_slots + 1
                   furthest_slot := some currentSlotId
                   max_slot_id := Nat.max p.header.max_slot_id currentSlotId
                   entries := entriesInsert p.header.entries currentSlotId pos len }
               data := writeRange p.data pos bytes })

/-- Outcome component of `Page::add_value`. -/
def addOutcome (p : Page) (bytes : List Nat) : AddOutcome :=
  (addValueFull p bytes).1

/-- State component of `Page::add_value` (the page after the call). -/
def addPage (p : Page) (bytes : List Nat) : Page :=
  (addValueFull p bytes).2

/-- Embedding of `Page::get_value`. -/
def getValue (p : Page) (slot : Nat) : Option (List Nat) :=
  match entriesGet p.header.entries slot with
  | none => none
  | some e => some (readRange p.data e.1 e.2)

/-- Embedding of the `previous_max_slot` recomputation loop of
`Page::delete_value` (scan of the remaining entries keeping the key whose
looked-up offset is largest; `es` is the full remaining map that the loop's
`entries.get(&previous_max_slot)` consults). -/
def recomputeGo (es : List (Nat × Nat × Nat)) :
    List (Nat × Nat × Nat) → Nat → Nat
  | [], prev => prev
  | e :: rest, prev =>
    let prevOff := ((entriesGet es prev).map (fun v => v.1)).getD 0
    recomputeGo es rest (if prevOff < e.2.1 then e.1 else prev)

/-- Embedding of the full recomputation of `furthest_slot` after deleting the
furthest slot (`previous_max_slot` starts at the first key, later keys replace
it when their offset is larger; 0 when the map became empty). -/
def recomputeFurthest (es : List (Nat × Nat × Nat)) : Nat :=
  match es with
  | [] => 0
  | e :: rest => recomputeGo (e :: rest) rest e.1

/-- Outcome of `Page::delete_value`: `panic` models an `unwrap` failure,
`notFound` the `None` return for an unknown slot, `ok` the `Some(())` return. -/
inductive DelOutcome where
  | panic : DelOutcome
  | notFound : DelOutcome
  | ok : DelOutcome
deriving DecidableEq, Repr

/-- Embedding of `Page::delete_value` (outcome together with the updated
page). The source zeroes the deleted byte range, then either recomputes
`furthest_slot` (when the deleted slot was the furthest) or left-rotates the
data after the deleted range and shifts the offsets of entries placed after
it. -/
def deleteValueFull (p : Page) (slot : Nat) : DelOutcome × Page :=
  if ¬ entriesContains p.header.entries slot then (DelOutcome.notFound, p)
  else
    match p.header.furthest_slot with
    | none => (DelOutcome.panic, p)
    | some fs =>
      match entriesGet p.header.entries slot with
      | none => (DelOutcome.panic, p)
      | some del =>
        let es1 := entriesRemove p.header.entries slot
        let data1 := writeRange p.data del.1 (List.replicate del.2 0)
        if slot = fs then
          (DelOutcome.ok,
           { header :=
               { page_id := p.header.page_id
                 number_of_slots := p.header.number_of_slots - 1
                 furthest_slot := some (recomputeFurthest es1)
                 max_slot_id := p.header.max_slot_id
                 entries := es1 }
             data := data1 })
        else
          match entriesGet es1 fs with
          | none => (DelOutcome.panic, p)
          | some fe =>
            let rotEnd := fe.1 + fe.2
            let data2 := rotateRange data1 del.1 rotEnd del.2
            let es2 := es1.map
              (fun e => if del.1 < e.2.1 then (e.1, e.2.1 - del.2, e.2.2) else e)
            (DelOutcome.ok,
             { header :=
                 { page_id := p.header.page_id
                   number_of_slots := p.header.number_of_slots - 1
                   furthest_slot := p.header.furthest_slot
                   max_slot_id := p.header.max_slot_id
                   entries := es2 }
               data := data2 })

/-- Outcome component of `Page::delete_value`. -/
def delOutcome (p : Page) (slot : Nat) : DelOutcome :=
  (deleteValueFull p slot).1

/-- State component of `Page::delete_value` (the page after the call). -/
def delPage (p : Page) (slot : Nat) : Page :=
  (deleteValueFull p slot).2

/-! ## Serialization: `Page::get_bytes` and `Page::from_bytes` -/

/-- Write a little-endian u16 at byte positions `pos` (low byte) and `pos + 1`
(high byte), as the source's paired `to_le_bytes` stores. -/
def writeU16 (f : Nat → Nat) (pos v : Nat) : Nat → Nat :=
  fun i => if i = pos then v % 256 else if i = pos + 1 then v / 256 % 256 else f i

/-- Write the slot triples of `get_bytes`: the `j`-th processed entry
`(k, off, len)` stores `k` little-endian at `PAGE_SIZE - (10 + 6*j)`, `off` at
`PAGE_SIZE - (12 + 6*j)` and `len` at `PAGE_SIZE - (14 + 6*j)`. -/
def writeEntriesImg : List (Nat × Nat × Nat) → Nat → (Nat → Nat) → (Nat → Nat)
  | [], _, f => f
  | e :: rest, j, f =>
    writeEntriesImg rest (j + 1)
      (writeU16 (writeU16 (writeU16 f (PAGE_SIZE - (10 + 6 * j)) e.1)
        (PAGE_SIZE - (12 + 6 * j)) e.2.1) (PAGE_SIZE - (14 + 6 * j)) e.2.2)

/-- Byte image written by `Page::get_bytes` for furthest slot value `fs`:
the raw data bytes, overwritten at the high end by `page_id` (at
`PAGE_SIZE - 2`), `number_of_slots` (at `- 4`), `furthest_slot` (at `- 6`),
`max_slot_id` (at `- 8`) and then the slot triples. -/
def serializeImage (p : Page) (fs : Nat) : Nat → Nat :=
  writeEntriesImg p.header.entries 0
    (writeU16 (writeU16 (writeU16 (writeU16 p.data (PAGE_SIZE - 2) p.header.page_id)
      (PAGE_SIZE - 4) p.header.number_of_slots) (PAGE_SIZE - 6) fs)
      (PAGE_SIZE - 8) p.header.max_slot_id)

/-- Embedding of `Page::get_bytes`. `none` models the panic of
`self.header.furthest_slot.unwrap()` when the field is absent (freshly created
page); otherwise the result is the `PAGE_SIZE`-byte image. -/
def getBytes (p : Page) : Option (List Nat) :=
  match p.header.furthest_slot with
  | none => none
  | some fs => some ((List.range PAGE_SIZE).map (serializeImage p fs))

/-- Byte image of `get_bytes` with default `[]` (the source value whenever the
unwrap cannot panic). -/
def getBytesD (p : Page) : List Nat :=
  (getBytes p).getD []

/-- Read a little-endian u16 from a byte list at position `pos`
(`u16::from_le_bytes`). -/
def readU16 (img : List Nat) (pos : Nat) : Nat :=
  img.getD pos 0 + 256 * img.getD (pos + 1) 0

/-- Read `cnt` slot triples of `from_bytes` starting at triple index `j`,
inserting each `(slot, offset, length)` into the accumulated map exactly as the
source's `mappings.insert`. -/
def readTriples (img : List Nat) :
    Nat → Nat → List (Nat × Nat × Nat) → List (Nat × Nat × Nat)
  | 0, _, acc => acc
  | cnt + 1, j, acc =>
    let k := readU16 img (PAGE_SIZE - (10 + 6 * j))
    let off := readU16 img (PAGE_SIZE - (12 + 6 * j))
    let len := readU16 img (PAGE_SIZE - (14 + 6 * j))
    readTriples img cnt (j + 1) (entriesInsert acc k off len)

/-- Embedding of `Page::from_bytes`. -/
def fromBytes (img : List Nat) : Page :=
  let cnt := readU16 img (PAGE_SIZE - 4)
  { header :=
      { page_id := readU16 img (PAGE_SIZE - 2)
        number_of_slots := cnt
        furthest_slot := some (readU16 img (PAGE_SIZE - 6))
        max_slot_id := readU16 img (PAGE_SIZE - 8)
        entries := readTriples img cnt 0 [] }
    data := fun i => img.getD i 0 }

/-! ## Well-formedness predicates (decidable).
These record the invariants of reachable pages that the individual theorems
need; §3 of the specification states them as invariants 1–5. -/

/-- Consistency of the `furthest_slot` field with the entries map: absent on an
empty map, present and pointing at a live key otherwise. Sufficient to rule
out every `unwrap` panic inside `add_value`. -/
def furthestOkB (p : Page) : Bool :=
  match p.header.furthest_slot with
  | none => p.header.entries.isEmpty
  | some fs => !p.header.entries.isEmpty && entriesContains p.header.entries fs

/-- Consistency of the `number_of_slots` field with the entries map
(specification §3: `number_of_slots` equals `entries.size()` at all times). -/
def countOkB (p : Page) : Bool :=
  p.header.number_of_slots = p.header.entries.length

/-! ## Page iteration (`PageIter` / `IntoIterator for Page`) -/

/-- Insert into a sorted list (ascending), auxiliary for `insSort`. -/
def insSorted (x : Nat) : List Nat → List Nat
  | [] => [x]
  | y :: ys => if x ≤ y then x :: y :: ys else y :: insSorted x ys

/-- Insertion sort, embedding of `temp_vec.sort()` in `into_iter`. -/
def insSort : List Nat → List Nat
  | [] => []
  | x :: xs => insSorted x (insSort xs)

/-- Embedding of the page iterator: the records of the page in ascending slot
id order (`into_iter` sorts the keys; `PageIter::next` reads
`data[offset..offset+len]` for each key). -/
def pageRecords (p : Page) : List (List Nat) :=
  (insSort (entriesKeys p.header.entries)).map
    (fun k =>
      match entriesGet p.header.entries k with
      | none => []
      | some e => readRange p.data e.1 e.2)

/-! ## Storage manager record insertion (storage_manager.rs `insert_value`)
and the heap-file iterator (heapfileiter.rs).

The heap file that backs a container is modelled at the page level: the
on-disk page array becomes a `List Page`, `get_page` a list lookup,
`write_page_to_file` a list update (for `pid < len`) or append (for
`pid = len`, the only new-page id the storage manager produces). The byte
layout of the file itself is modelled separately for `read_page_from_file`
below. -/

/-- Outcome of `StorageManager::insert_value`: `panic` models the explicit
`panic!` for oversized values and any `unwrap`/page panic reached through
`add_value`; `res pid slot` is the returned `ValueId` (its `page_id` and
`slot_id` fields; `slot = none` models the absent `slot_id` left when the new
page rejected the value). -/
inductive InsOutcome where
  | panic : InsOutcome
  | res : Nat → Option Nat → InsOutcome
deriving DecidableEq, Repr

/-- First-fit scan of `insert_value` over the existing pages starting at index
`i`: the first page whose `add_value` succeeds is returned together with its
index and updated state. `none` models a panic inside `add_value`;
`some none` means no existing page accepted the value. -/
def ffScan (value : List Nat) : List Page → Nat → Option (Option (Nat × Nat × Page))
  | [], _ => some none
  | p :: rest, i =>
    match addValueFull p value with
    | (AddOutcome.ok s, p1) => some (some (i, s, p1))
    | (AddOutcome.full, _) => ffScan value rest (i + 1)
    | (AddOutcome.panic, _) => none

/-- Embedding of `StorageManager::insert_value` on one container: panic on a
value above `PAGE_SIZE`, otherwise first-fit over the pages in ascending page
id order; when no page accepts, a fresh page with id `pages.length` (the
current page count) is tried, and is appended only when its `add_value`
succeeds. -/
def insertValueSM (pages : List Page) (value : List Nat) : InsOutcome × List Page :=
  if value.length > PAGE_SIZE then (InsOutcome.panic, pages)
  else
    match ffScan value pages 0 with
    | none => (InsOutcome.panic, pages)
    | some (some r) => (InsOutcome.res r.1 (some r.2.1), pages.set r.1 r.2.2)
    | some none =>
      match addValueFull (pageNew pages.length) value with
      | (AddOutcome.ok s, np) => (InsOutcome.res pages.length (some s), pages ++ [np])
      | (AddOutcome.full, _) => (InsOutcome.res pages.length none, pages)
      | (AddOutcome.panic, _) => (InsOutcome.panic, pages)

/-- Sequential composition of `insert_value` over a list of values
(`insert_values` / repeated calls), returning the final page list. -/
def insertAllSM (pages : List Page) (vals : List (List Nat)) : List Page :=
  vals.foldl (fun ps v => (insertValueSM ps v).2) pages

/-- Embedding of `HeapFileIterator::new` followed by draining the iterator:
all records of pages `0..num_pages`, each page contributing its records in
ascending slot order. -/
def iterAllSM (pages : List Page) : List (List Nat) :=
  pages.flatMap pageRecords

/-- Holds when every value of the insertion sequence is placed on the final
existing page or on a freshly allocated page (no insert back-fills an earlier
page). Computed along the same fold as `insertAllSM`. -/
def noBackfillB : List Page → List (List Nat) → Bool
  | _, [] => true
  | ps, v :: vs =>
    match ffScan v ps 0 with
    | some (some r) => decide (ps.length ≤ r.1 + 1) && noBackfillB (insertValueSM ps v).2 vs
    | some none => noBackfillB (insertValueSM ps v).2 vs
    | none => false

/-- First-fit page choice as the specification words it: the least index of a
page that accepts the value, and the current page count when none does. -/
def specFirstFitIdx (pages : List Page) (value : List Nat) : Nat :=
  match pages.findIdx? (fun p =>
    match (addValueFull p value).1 with
    | AddOutcome.ok _ => true
    | _ => false) with
  | some i => i
  | none => pages.length

/-- Page id carried by an `insert_value` result (`none` on panic). -/
def insResPageId : InsOutcome → Option Nat
  | InsOutcome.panic => none
  | InsOutcome.res pid _ => some pid

/-! ## Heap file byte layout (heapfile.rs `read_page_from_file`) -/

/-- Read the 8-byte little-endian page count at the start of the heap file. -/
def readU64 (file : List Nat) : Nat :=
  file.getD 0 0 + 256 * file.getD 1 0 + 256 ^ 2 * file.getD 2 0 + 256 ^ 3 * file.getD 3 0 +
    256 ^ 4 * file.getD 4 0 + 256 ^ 5 * file.getD 5 0 + 256 ^ 6 * file.getD 6 0 +
    256 ^ 7 * file.getD 7 0

/-- Embedding of `HeapFile::num_pages` (the u64 count is cast to the 16-bit
`PageId`). -/
def numPagesHF (file : List Nat) : Nat :=
  readU64 file % 65536

/-- Error surface of `read_page_from_file`. -/
inductive HFError where
  | ioError : HFError
  | invalidPageId : HFError
deriving DecidableEq, Repr

/-- Embedding of `HeapFile::read_page_from_file`: read the page count, reject
`pid` at or above it with the invalid-page error, otherwise read exactly
`PAGE_SIZE` bytes at offset `8 + pid * PAGE_SIZE` and rebuild the page with
`Page::from_bytes`. A too-short file makes the exact reads fail (I/O error). -/
def readPageFromFile (file : List Nat) (pid : Nat) : Except HFError Page :=
  if file.length < 8 then Except.error HFError.ioError
  else
    let pages := readU64 file
    if pid ≥ pages then Except.error HFError.invalidPageId
    else if file.length < 8 + (pid + 1) * PAGE_SIZE then Except.error HFError.ioError
    else Except.ok (fromBytes ((file.drop (8 + pid * PAGE_SIZE)).take PAGE_SIZE))

/-! ## Storage-manager container file paths (storage_manager.rs) -/

/-- Path at which `create_container` creates the heap file:
`format!("\x7b\x7d/\x7b\x7d", storage_path, "containers/heapfile_<cid>")`. -/
def createContainerHeapfilePath (storagePath : String) (cid : Nat) : String :=
  storagePath ++ "/" ++ ("containers/heapfile_" ++ toString cid)

/-- Path that `remove_container` passes to `fs::remove_file`: the storage path
with `"containers/heapfile_"` and the container id appended directly
(`push_str`), with no separator in between. -/
def removeContainerTargetPath (storagePath : String) (cid : Nat) : String :=
  storagePath ++ "containers/heapfile_" ++ toString cid

/-- Minimal file-system and registry state for `remove_container`: the set of
existing file paths and the registered container ids. -/
structure FsState where
  files : List String
  containers : List Nat
deriving DecidableEq

/-- Embedding of `StorageManager::remove_container`: delete the file at the
computed path; when `fs::remove_file` fails (file absent) the `?` operator
returns the error before the in-memory mapping is touched. -/
def removeContainerSM (st : FsState) (storagePath : String) (cid : Nat) :
    Option FsState :=
  let path := removeContainerTargetPath storagePath cid
  if st.files.contains path then
    some { files := st.files.erase path
           containers := st.containers.filter (fun c => ¬ c = cid) }
  else none

/-! ## Aggregate operator state machine (queryexe/src/opiterator/aggregate.rs)

Only the open/close protocol state is relevant to the claims; the tuple
contents flowing through the operator are not modelled. -/

/-- Protocol state of the inner `TupleIterator` held in `agg_iter`.

Modelled from the spec: `TupleIterator` lives in the `opiterator` module of
`queryexe`, which is not among the provided sources; per the specification's
operator contract it tracks an open flag set by `open` and cleared by
`close`. Its `close` is total (does not panic on a closed iterator): the
repository's own `test_close` calls `Aggregate::close` right after `open`,
before any `next`, which closes the inner iterator while it is still unopened
and expects success. -/
structure TupleIter where
  opened : Bool
deriving DecidableEq, Repr

/-- Modelled from the spec: `TupleIterator::open` sets the open flag. -/
def tupleIterOpen (t : TupleIter) : TupleIter :=
  { t with opened := true }

/-- Modelled from the spec: `TupleIterator::close` clears the open flag and
returns Ok (see `TupleIter` for why it is total). -/
def tupleIterClose (t : TupleIter) : TupleIter :=
  { t with opened := false }

/-- Modelled from the spec: `TupleIterator::next` is a contract violation
(panic, here `none`) on a closed iterator and yields normally otherwise. -/
def tupleIterNext (t : TupleIter) : Option TupleIter :=
  if t.opened then some t else none

/-- Protocol state of the `Aggregate` operator: its `open` flag, the optional
inner iterator `agg_iter` and the `first_access` flag. -/
structure AggState where
  isOpen : Bool
  aggIter : Option TupleIter
  firstAccess : Bool
deriving DecidableEq, Repr

/-- Result of a protocol call on the operator: `panic` models a contract
violation (`panic!` or `unwrap` failure), `ok` the normal return. -/
inductive AggStep where
  | panic : AggStep
  | ok : AggState → AggStep
deriving DecidableEq, Repr

/-- State of a fresh `Aggregate` as built by `Aggregate::new`: closed, no
inner iterator, `first_access` false. -/
def aggInit : AggState :=
  { isOpen := false, aggIter := none, firstAccess := false }

/-- Embedding of `Aggregate::open` (protocol part): drains the child into the
aggregator, installs a fresh (unopened) result iterator, sets the open and
first-access flags. -/
def aggOpen (_s : AggState) : AggState :=
  { isOpen := true, aggIter := some { opened := false }, firstAccess := true }

/-- Embedding of `Aggregate::next` (protocol part): panics when the operator
is closed; otherwise unwraps the inner iterator, opens it on first access and
pulls it. -/
def aggNext (s : AggState) : AggStep :=
  if ¬ s.isOpen then AggStep.panic
  else
    match s.aggIter with
    | none => AggStep.panic
    | some t =>
      let t1 := if s.firstAccess then tupleIterOpen t else t
      match tupleIterNext t1 with
      | none => AggStep.panic
      | some t2 => AggStep.ok { s with aggIter := some t2, firstAccess := false }

/-- Embedding of `Aggregate::close`: no open-state check; clears the open
flag and closes the inner iterator, whose absence (operator never opened)
makes the `as_mut().unwrap()` panic. -/
def aggClose (s : AggState) : AggStep :=
  match s.aggIter with
  | none => AggStep.panic
  | some t => AggStep.ok { s with isOpen := false, aggIter := some (tupleIterClose t) }

/-- Embedding of `Aggregate::rewind`: panics when closed, otherwise `close`
followed by `open`. -/
def aggRewind (s : AggState) : AggStep :=
  if ¬ s.isOpen then AggStep.panic
  else
    match aggClose s with
    | AggStep.panic => AggStep.panic
    | AggStep.ok s1 => AggStep.ok (aggOpen s1)

/-- State carried by a protocol step result, with a default for the panic
case. -/
def aggStepState (r : AggStep) (d : AggState) : AggState :=
  match r with
  | AggStep.panic => d
  | AggStep.ok s => s

/-! ## Specification-side definitions (for refinement comparisons) -/

/-- Slot id prescribed by the specification's allocation rule (§3): the
smallest non-negative integer that is not a key of `entries` and lies below
the current maximum live identifier; when no such gap exists, the live-slot
count before the insertion. -/
def specAllocSlot (p : Page) : Nat :=
  match (List.range (entriesMaxKey p.header.entries)).find?
      (fun i => ¬ entriesContains p.header.entries i) with
  | some i => i
  | none => p.header.entries.length

/-! ## Further well-formedness predicates -/

/-- Well-formedness needed by the serialization round trip (specification
invariants 1 and 4 plus 16-bit bounds): slot count consistent, keys distinct,
every record inside the data region left of the serialized header, and the
header fields within u16 range. -/
def pageWf4B (p : Page) : Bool :=
  countOkB p &&
  decide (entriesKeys p.header.entries).Nodup &&
  p.header.entries.all (fun e => e.2.1 + e.2.2 + getHeaderSize p ≤ PAGE_SIZE) &&
  (8 + 6 * p.header.entries.length ≤ PAGE_SIZE) &&
  p.header.entries.all (fun e => e.1 < 65536) &&
  (p.header.page_id < 65536) &&
  (p.header.number_of_slots < 65536) &&
  (p.header.max_slot_id < 65536)

/-- Well-formedness needed by the delete/compaction theorem (specification
invariants 1–5): slot count consistent, keys distinct, `furthest_slot`
pointing at the record that ends last, pairwise disjoint record ranges whose
lengths sum to `packedEnd` (a contiguous prefix, invariant 3), everything
inside the page, and non-empty records. -/
def pagePackedB (p : Page) : Bool :=
  countOkB p &&
  furthestOkB p &&
  decide (entriesKeys p.header.entries).Nodup &&
  p.header.entries.all (fun e => e.2.1 + e.2.2 ≤ packedEnd p) &&
  decide (p.header.entries.Pairwise
    (fun e f => e.2.1 + e.2.2 ≤ f.2.1 ∨ f.2.1 + f.2.2 ≤ e.2.1)) &&
  ((p.header.entries.map (fun e => e.2.2)).sum = packedEnd p) &&
  (packedEnd p + 8 + 6 * p.header.entries.length ≤ PAGE_SIZE) &&
  p.header.entries.all (fun e => 0 < e.2.2)

/-! ## Insert-only pages (for the storage-manager iterator theorem).
A page that was filled by a sequence of successful `add_value` calls and
nothing else has slots `0, 1, ..., n-1` packed back to back in insertion
order. -/

/-- Entries of an insert-only page holding `recs`, starting at slot id `j`
and data offset `off`. -/
def chainEntriesAux : List (List Nat) → Nat → Nat → List (Nat × Nat × Nat)
  | [], _, _ => []
  | r :: rs, j, off => (j, off, r.length) :: chainEntriesAux rs (j + 1) (off + r.length)

/-- Entries of an insert-only page holding `recs`. -/
def chainEntries (recs : List (List Nat)) : List (Nat × Nat × Nat) :=
  chainEntriesAux recs 0 0

/-- Total length of a record list. -/
def recsSize (recs : List (List Nat)) : Nat :=
  (recs.map List.length).sum

/-- The page state reached from `Page::new pid` by successfully adding the
records `recs` in order. -/
def InsOnly (pid : Nat) (recs : List (List Nat)) (p : Page) : Prop :=
  p.header.page_id = pid ∧
  p.header.number_of_slots = recs.length ∧
  p.header.furthest_slot = (match recs.length with | 0 => none | n + 1 => some n) ∧
  p.header.entries = chainEntries recs ∧
  (∀ j r, recs.get? j = some r →
    readRange p.data (recsSize (recs.take j)) r.length = r) ∧
  recsSize recs + 8 + 6 * recs.length ≤ PAGE_SIZE

/-- Relation between a storage-manager page list and the per-page record
lists. -/
def SMInv (pages : List Page) (recss : List (List (List Nat))) : Prop :=
  pages.length = recss.length ∧
  ∀ i, i < pages.length → InsOnly i (recss.getD i []) (pages.getD i (pageNew 0))

/-! ## Concrete inputs used by counterexamples and witnesses -/

/-- Two 20-byte records, the concrete page of the delete free-space
counterexample. -/
def c3page : Page :=
  addPage (addPage (pageNew 0) (List.replicate 20 1)) (List.replicate 20 2)

/-- First record (2040 bytes) of the first-fit reordering counterexample. -/
def c6v1 : List Nat := List.replicate 2040 1

/-- Second record (2036 bytes) of the first-fit reordering counterexample. -/
def c6v2 : List Nat := List.replicate 2036 2

/-- Record sequence of the first-fit reordering counterexample: the third
record back-fills page 0 while the second lives on page 1. -/
def c6vals : List (List Nat) := [c6v1, c6v2, [3]]

/-- Concrete page used by the serialization-round-trip witness (scenario S1:
page id 2 with two records). -/
def c4page : Page :=
  addPage (addPage (pageNew 2) [0, 1, 2]) [3, 3, 3]

/-- Concrete page used by the slot-reuse witness (scenario S2 prefix: three
20-byte records, slot 1 deleted). -/
def c5page : Page :=
  delPage (addPage (addPage (addPage (pageNew 0)
    (List.replicate 20 1)) (List.replicate 20 2)) (List.replicate 20 3)) 1

/-- Concrete heap file used by the read-page witness: page count 1 followed by
one all-zero page image. -/
def c10file : List Nat := 1 :: List.replicate (7 + PAGE_SIZE) 0

/-- Aggregate operator state reached by `open` then `close` from a fresh
operator: closed, but holding a (closed) inner iterator. -/
def aggClosedTwice : AggState :=
  aggStepState (aggClose (aggOpen aggInit)) aggInit

/-! # Lemmas -/

/-! ## Entries map lemmas -/

theorem entriesGet_of_contains (es : List (Nat × Nat × Nat)) (k : Nat)
    (h : entriesContains es k = true) : ∃ v, entriesGet es k = some v := by
  induction es with
  | nil => simp [entriesContains] at h
  | cons e rest ih =>
    by_cases hk : e.1 = k
    · exact ⟨e.2, by simp [entriesGet, hk]⟩
    · simp only [entriesContains, Bool.or_eq_true, decide_eq_true_eq] at h
      rcases h with h | h
      · exact absurd h hk
      · obtain ⟨v, hv⟩ := ih h
        exact ⟨v, by simp [entriesGet, hk, hv]⟩

theorem entriesGet_mem (es : List (Nat × Nat × Nat)) (k : Nat) (v : Nat × Nat)
    (h : entriesGet es k = some v) : (k, v) ∈ es := by
  induction es with
  | nil => simp [entriesGet] at h
  | cons e rest ih =>
    by_cases hk : e.1 = k
    · simp only [entriesGet, hk, if_true] at h
      have he : (k, v) = e := by
        cases h
        calc (k, e.2) = (e.1, e.2) := by rw [hk]
        _ = e := rfl
      rw [he]
      exact List.mem_cons_self e rest
    · simp only [entriesGet, hk, if_false] at h
      exact List.mem_cons_of_mem _ (ih h)

theorem entriesGet_none_iff (es : List (Nat × Nat × Nat)) (k : Nat) :
    entriesGet es k = none ↔ entriesContains es k = false := by
  induction es with
  | nil => simp [entriesGet, entriesContains]
  | cons e rest ih =>
    by_cases hk : e.1 = k
    · simp [entriesGet, entriesContains, hk]
    · simp [entriesGet, entriesContains, hk, ih]

theorem entriesContains_of_mem (es : List (Nat × Nat × Nat)) (e : Nat × Nat × Nat)
    (h : e ∈ es) : entriesContains es e.1 = true := by
  induction es with
  | nil => simp at h
  | cons f rest ih =>
    rcases List.mem_cons.mp h with he | he
    · simp [entriesContains, he]
    · simp [entriesContains, ih he]


theorem getLargest_of_furthestOk (p : Page) (h : furthestOkB p = true) :
    getLargestFreeContiguousSpace p = some (freeD p) := by
  unfold furthestOkB at h
  cases hfs : p.header.furthest_slot with
  | none =>
    rw [hfs] at h
    have hlen : p.header.entries.length = 0 := by
      rwa [List.isEmpty_iff_length_eq_zero] at h
    unfold freeD getLargestFreeContiguousSpace
    simp [hlen]
  | some fs =>
    rw [hfs] at h
    simp only [Bool.and_eq_true, Bool.not_eq_true'] at h
    obtain ⟨hne, hcon⟩ := h
    have hlen : ¬ p.header.entries.length = 0 := by
      intro h0
      rw [← List.isEmpty_iff_length_eq_zero] at h0
      rw [h0] at hne
      cases hne
    obtain ⟨v, hv⟩ := entriesGet_of_contains _ _ hcon
    unfold freeD getLargestFreeContiguousSpace
    simp [hlen, hfs, hv]

theorem getFirstFreeSpace_some_nonempty (p : Page) (i : Nat)
    (h : getFirstFreeSpace p = some i) : ¬ p.header.entries.length = 0 := by
  intro h0
  unfold getFirstFreeSpace at h
  simp [h0] at h

theorem addValueFull_eq_full (p : Page) (b : List Nat) (h : furthestOkB p = true)
    (hle : freeD p ≤ b.length + 6) : addValueFull p b = (AddOutcome.full, p) := by
  unfold addValueFull
  rw [getLargest_of_furthestOk p h]
  simp only []
  rw [if_pos (by omega)]

theorem addValueFull_ok_slot (p : Page) (b : List Nat) (h : furthestOkB p = true)
    (hcount : countOkB p = true) (hlt : b.length + 6 < freeD p) :
    (addValueFull p b).1 = AddOutcome.ok (specAllocSlot p) := by
  unfold addValueFull
  rw [getLargest_of_furthestOk p h]
  simp only []
  rw [if_neg (by omega)]
  cases hff : getFirstFreeSpace p with
  | some i =>
    have hne := getFirstFreeSpace_some_nonempty p i hff
    unfold furthestOkB at h
    cases hfs : p.header.furthest_slot with
    | none =>
      rw [hfs] at h
      rw [List.isEmpty_iff_length_eq_zero] at h
      exact absurd h hne
    | some fs =>
      rw [hfs] at h
      simp only [Bool.and_eq_true] at h
      obtain ⟨v, hv⟩ := entriesGet_of_contains _ _ h.2
      simp only [hfs, hv]
      have hspec : specAllocSlot p = i := by
        unfold specAllocSlot
        unfold getFirstFreeSpace at hff
        rw [if_neg hne] at hff
        rw [hff]
      rw [hspec]
  | none =>
    cases hfs : p.header.furthest_slot with
    | none =>
      have hempty : p.header.entries = [] := by
        unfold furthestOkB at h
        rw [hfs] at h
        rwa [List.isEmpty_iff] at h
      have hspec : specAllocSlot p = 0 := by
        unfold specAllocSlot
        simp [hempty, entriesMaxKey, entriesKeys]
      rw [hspec]
    | some fs =>
      unfold furthestOkB at h
      rw [hfs] at h
      simp only [Bool.and_eq_true] at h
      obtain ⟨v, hv⟩ := entriesGet_of_contains _ _ h.2
      have hne : ¬ p.header.entries.length = 0 := by
        intro h0
        rw [← List.isEmpty_iff_length_eq_zero] at h0
        rw [h0] at h
        simpa using h.1
      simp only [hfs, hv]
      have hspec : specAllocSlot p = p.header.number_of_slots := by
        unfold specAllocSlot
        unfold getFirstFreeSpace at hff
        rw [if_neg hne] at hff
        rw [hff]
        unfold countOkB at hcount
        simp only [decide_eq_true_eq] at hcount
        rw [hcount]
      rw [hspec]

theorem addValueFull_ok_exists (p : Page) (b : List Nat) (h : furthestOkB p = true)
    (hlt : b.length + 6 < freeD p) :
    ∃ s, (addValueFull p b).1 = AddOutcome.ok s := by
  unfold addValueFull
  rw [getLargest_of_furthestOk p h]
  simp only []
  rw [if_neg (by omega)]
  cases hff : getFirstFreeSpace p with
  | some i =>
    have hne := getFirstFreeSpace_some_nonempty p i hff
    unfold furthestOkB at h
    cases hfs : p.header.furthest_slot with
    | none =>
      rw [hfs] at h
      rw [List.isEmpty_iff_length_eq_zero] at h
      exact absurd h hne
    | some fs =>
      rw [hfs] at h
      simp only [Bool.and_eq_true] at h
      obtain ⟨v, hv⟩ := entriesGet_of_contains _ _ h.2
      simp only [hfs, hv]
      exact ⟨i, rfl⟩
  | none =>
    cases hfs : p.header.furthest_slot with
    | none => exact ⟨0, rfl⟩
    | some fs =>
      unfold furthestOkB at h
      rw [hfs] at h
      simp only [Bool.and_eq_true] at h
      obtain ⟨v, hv⟩ := entriesGet_of_contains _ _ h.2
      simp only [hfs, hv]
      exact ⟨p.header.number_of_slots, rfl⟩

theorem addValueFull_full_iff (p : Page) (b : List Nat) (h : furthestOkB p = true) :
    (addValueFull p b).1 = AddOutcome.full ↔ freeD p ≤ b.length + 6 := by
  constructor
  · intro hfull
    by_contra hc
    obtain ⟨s, hs⟩ := addValueFull_ok_exists p b h (by omega)
    rw [hfull] at hs
    cases hs
  · intro hle
    rw [addValueFull_eq_full p b h hle]

theorem addValueFull_not_panic (p : Page) (b : List Nat) (h : furthestOkB p = true) :
    (addValueFull p b).1 ≠ AddOutcome.panic := by
  by_cases hle : freeD p ≤ b.length + 6
  · rw [addValueFull_eq_full p b h hle]
    intro hc
    cases hc
  · obtain ⟨s, hs⟩ := addValueFull_ok_exists p b h (by omega)
    rw [hs]
    intro hc
    cases hc

/-! # Claims C1, C2, C5 (page admission, totality, slot allocation) -/

/-- C1 (amended): for every page whose `furthest_slot` field is consistent
with the entries map, `add_value(b)` returns an allocated slot identifier
exactly when `len(b) + H_SLOT < free contiguous space` — equivalently, it
returns absent if and only if `len(b) + H_SLOT ≥ free_space` (the source uses
the `≥` admission check, not `>`), it never panics, and a rejected insert
returns the page unchanged. -/
theorem c1_amended_theorem (p : Page) (b : List Nat) (h : furthestOkB p = true) :
    ((addValueFull p b).1 = AddOutcome.full ↔ freeD p ≤ b.length + 6) ∧
    ((addValueFull p b).1 = AddOutcome.full → (addValueFull p b).2 = p) ∧
    (addValueFull p b).1 ≠ AddOutcome.panic := by
  refine ⟨addValueFull_full_iff p b h, ?_, addValueFull_not_panic p b h⟩
  intro hfull
  have hle := (addValueFull_full_iff p b h).mp hfull
  rw [addValueFull_eq_full p b h hle]

/-- C1 witness: the amended theorem applied to a fresh page and a two-byte
record. -/
theorem c1_witness :
    furthestOkB (pageNew 0) = true ∧
    (((addValueFull (pageNew 0) [1, 2]).1 = AddOutcome.full ↔
        freeD (pageNew 0) ≤ ([1, 2] : List Nat).length + 6) ∧
      ((addValueFull (pageNew 0) [1, 2]).1 = AddOutcome.full →
        (addValueFull (pageNew 0) [1, 2]).2 = pageNew 0) ∧
      (addValueFull (pageNew 0) [1, 2]).1 ≠ AddOutcome.panic) :=
  ⟨by decide, c1_amended_theorem (pageNew 0) [1, 2] (by decide)⟩

/-- C1 counterexample: the claim as stated says a record with
`len + H_SLOT ≤ free_space` is allocated, but on a fresh page (free space
4088) a 4082-byte record satisfies `4082 + 6 ≤ 4088` and is rejected. -/
theorem c1_counterexample :
    (List.replicate 4082 0).length + 6 ≤ freeD (pageNew 0) ∧
    (addValueFull (pageNew 0) (List.replicate 4082 0)).1 = AddOutcome.full := by
  have hlen : (List.replicate 4082 (0 : Nat)).length = 4082 := List.length_replicate 4082 0
  have hfree : freeD (pageNew 0) = 4088 := by decide
  constructor
  · rw [hlen, hfree]
  · have := addValueFull_eq_full (pageNew 0) (List.replicate 4082 0) (by decide)
      (by rw [hlen, hfree])
    rw [this]

/-- C2: the page layer is not total — `get_bytes` of a freshly created empty
page panics on `furthest_slot.unwrap()` (modelled as `none`), and `add_value`
on a page from which every record has been deleted panics on
`entries.get_mut(&furthest_slot).unwrap()` because deletion of the last slot
leaves `furthest_slot = Some(0)` over an empty map. -/
theorem c2_bug_eval :
    getBytes (pageNew 0) = none ∧
    (addValueFull (delPage (addPage (pageNew 0) [1, 2]) 0) [5]).1 = AddOutcome.panic :=
  ⟨rfl, by decide⟩

/-- C5: on every consistent page, a successful `add_value` allocates the slot
id prescribed by the specification rule: the smallest id missing below the
current maximum live id, and the live-slot count when there is no gap. -/
theorem c5_theorem (p : Page) (b : List Nat) (h1 : furthestOkB p = true)
    (h2 : countOkB p = true) (h3 : b.length + 6 < freeD p) :
    (addValueFull p b).1 = AddOutcome.ok (specAllocSlot p) :=
  addValueFull_ok_slot p b h1 h2 h3

/-- C5 witness: the scenario-S2 prefix (three 20-byte inserts, slot 1
deleted) reuses slot 1 for the next insert. -/
theorem c5_witness :
    furthestOkB c5page = true ∧ countOkB c5page = true ∧
    ([9] : List Nat).length + 6 < freeD c5page ∧
    specAllocSlot c5page = 1 ∧
    (addValueFull c5page [9]).1 = AddOutcome.ok (specAllocSlot c5page) :=
  ⟨by decide, by decide, by decide, by decide,
    c5_theorem c5page [9] (by decide) (by decide) (by decide)⟩

/-! # Claim C7 (remove_container path) -/

/-- C7: `remove_container` concatenates the storage path and
`containers/heapfile_<cid>` without the `/` separator that `create_container`
inserts, so for the storage path `tmp` it targets a different path than the
file that was created, `fs::remove_file` fails, and the error return leaves
the in-memory mapping untouched. -/
theorem c7_bug_eval :
    removeContainerTargetPath "tmp" 1 ≠ createContainerHeapfilePath "tmp" 1 ∧
    removeContainerSM
      { files := [createContainerHeapfilePath "tmp" 1], containers := [1] } "tmp" 1 = none := by
  exact ⟨by decide, by decide⟩

/-! # Claim C9 (aggregate operator protocol) -/

/-- C9 (amended): on a closed `Aggregate` operator, `next` and `rewind` are
fatal, and `close` is fatal exactly when the operator has never been opened
(absent inner iterator); a `close` immediately following a previous `close`
returns Ok instead of terminating the process. -/
theorem c9_amended_theorem (s : AggState) (h : s.isOpen = false) :
    aggNext s = AggStep.panic ∧ aggRewind s = AggStep.panic ∧
    (s.aggIter = none → aggClose s = AggStep.panic) ∧
    (∀ t, s.aggIter = some t → aggClose s ≠ AggStep.panic) := by
  refine ⟨?_, ?_, ?_, ?_⟩
  · simp [aggNext, h]
  · simp [aggRewind, h]
  · intro hit
    simp [aggClose, hit]
  · intro t hit
    simp [aggClose, hit]

/-- C9 witness: the amended theorem applied to a freshly constructed
operator. -/
theorem c9_witness :
    aggInit.isOpen = false ∧
    (aggNext aggInit = AggStep.panic ∧ aggRewind aggInit = AggStep.panic ∧
      (aggInit.aggIter = none → aggClose aggInit = AggStep.panic) ∧
      (∀ t, aggInit.aggIter = some t → aggClose aggInit ≠ AggStep.panic)) :=
  ⟨rfl, c9_amended_theorem aggInit rfl⟩

/-- C9 counterexample: after `open` then `close`, a second `close` (a call on
the operator in the closed state) returns Ok rather than terminating the
process, refuting the claim that every `close` on a closed operator is
fatal. -/
theorem c9_counterexample :
    aggClosedTwice.isOpen = false ∧ aggClose aggClosedTwice ≠ AggStep.panic := by
  exact ⟨by decide, by decide⟩

/-! # Claim C8 (oversized values at the storage manager) -/

theorem freeD_le_page (p : Page) : freeD p ≤ PAGE_SIZE - 8 := by
  unfold freeD getLargestFreeContiguousSpace getHeaderSize
  by_cases hlen : p.header.entries.length = 0
  · simp [hlen]
  · simp only [hlen, if_false]
    rcases hfs : p.header.furthest_slot with _ | fs
    · simp
    · rcases hge : entriesGet p.header.entries fs with _ | v
      · simp [hge]
      · simp only [hge, Option.getD_some]
        omega

theorem addValueFull_big_full (p : Page) (b : List Nat) (h : furthestOkB p = true)
    (hlen : PAGE_SIZE - 14 ≤ b.length) : addValueFull p b = (AddOutcome.full, p) := by
  refine addValueFull_eq_full p b h ?_
  have hfree := freeD_le_page p
  unfold PAGE_SIZE at hlen hfree
  omega

theorem ffScan_all_full (v : List Nat) (ps : List Page) (i : Nat)
    (hall : ∀ p ∈ ps, furthestOkB p = true) (hlen : PAGE_SIZE - 14 ≤ v.length) :
    ffScan v ps i = some none := by
  induction ps generalizing i with
  | nil => rfl
  | cons p rest ih =>
    have hfull := addValueFull_big_full p v (hall p (List.mem_cons_self p rest)) hlen
    unfold ffScan
    rw [hfull]
    exact ih (i + 1) (fun q hq => hall q (List.mem_cons_of_mem p hq))

/-- C8: inserting a value of `P − H_FIX − H_SLOT ≤ len ≤ P` bytes neither
panics nor errors: every existing page rejects it (with consistent
`furthest_slot` fields), the fresh page rejects it too, the returned
`ValueId` has `page_id = current page count` and an absent `slot_id`, and the
container's pages are unchanged. -/
theorem c8_theorem (pages : List Page) (v : List Nat)
    (hall : ∀ p ∈ pages, furthestOkB p = true)
    (h1 : PAGE_SIZE - 14 ≤ v.length) (h2 : v.length ≤ PAGE_SIZE) :
    insertValueSM pages v = (InsOutcome.res pages.length none, pages) := by
  unfold insertValueSM
  rw [if_neg (by omega)]
  rw [ffScan_all_full v pages 0 hall h1]
  have hfresh : addValueFull (pageNew pages.length) v = (AddOutcome.full, pageNew pages.length) :=
    addValueFull_big_full (pageNew pages.length) v rfl h1
  rw [hfresh]

/-- C8 witness: a 4082-byte value inserted into a container holding one empty
page. -/
theorem c8_witness :
    PAGE_SIZE - 14 ≤ (List.replicate 4082 9).length ∧
    (List.replicate 4082 9).length ≤ PAGE_SIZE ∧
    insertValueSM [pageNew 0] (List.replicate 4082 9) =
      (InsOutcome.res 1 none, [pageNew 0]) := by
  have hlen : (List.replicate 4082 (9 : Nat)).length = 4082 := List.length_replicate 4082 9
  refine ⟨by rw [hlen]; decide, by rw [hlen]; decide, ?_⟩
  have h := c8_theorem [pageNew 0] (List.replicate 4082 9)
    (by
      intro p hp
      rw [List.mem_singleton] at hp
      rw [hp]
      decide)
    (by rw [hlen]; decide) (by rw [hlen]; decide)
  exact h

/-! # Claim C10 (heap-file page reads) -/

/-- C10: `read_page_from_file(pid)` fails with the invalid-page error for
every `pid ≥ num_pages()`, and for `pid < num_pages()` (with the page bytes
present in the file) it reads exactly `PAGE_SIZE` bytes at offset
`8 + pid · PAGE_SIZE` and reconstructs the page with `Page::from_bytes`. -/
theorem c10_theorem (file : List Nat) (pid : Nat)
    (hcnt : readU64 file < 65536) (hlen8 : 8 ≤ file.length) :
    (numPagesHF file ≤ pid → readPageFromFile file pid = Except.error HFError.invalidPageId) ∧
    (pid < numPagesHF file → 8 + (pid + 1) * PAGE_SIZE ≤ file.length →
      readPageFromFile file pid =
        Except.ok (fromBytes ((file.drop (8 + pid * PAGE_SIZE)).take PAGE_SIZE))) := by
  have hnp : numPagesHF file = readU64 file := by
    unfold numPagesHF
    exact Nat.mod_eq_of_lt hcnt
  constructor
  · intro hge
    unfold readPageFromFile
    rw [if_neg (by omega), if_pos (by omega)]
  · intro hlt hbytes
    unfold readPageFromFile
    rw [if_neg (by omega), if_neg (by omega), if_neg (by omega)]

/-- C10 witness: a heap file with page count 1; reading page 1 fails with the
invalid-page error while page 0 deserializes from the stored bytes. -/
theorem c10_witness :
    readU64 c10file < 65536 ∧ 8 ≤ c10file.length ∧
    readPageFromFile c10file 1 = Except.error HFError.invalidPageId ∧
    readPageFromFile c10file 0 =
      Except.ok (fromBytes ((c10file.drop 8).take PAGE_SIZE)) := by
  have hlen : c10file.length = 4104 := by
    rw [c10file, List.length_cons, List.length_replicate]
    decide
  have hcnt : readU64 c10file < 65536 := by decide
  have h8 : 8 ≤ c10file.length := by rw [hlen]; decide
  refine ⟨hcnt, h8, ?_, ?_⟩
  · exact (c10_theorem c10file 1 hcnt h8).1 (by decide)
  · have h := (c10_theorem c10file 0 hcnt h8).2 (by decide) (by rw [hlen]; decide)
    exact h

/-! # Claim C3 lemmas (delete and compaction) -/

theorem entriesContains_of_get (es : List (Nat × Nat × Nat)) (k : Nat) (v : Nat × Nat)
    (h : entriesGet es k = some v) : entriesContains es k = true := by
  by_contra hc
  have : entriesGet es k = none := (entriesGet_none_iff es k).mpr (by
    cases hx : entriesContains es k
    · rfl
    · exact absurd hx hc)
  rw [h] at this
  cases this

theorem mem_entriesGet (es : List (Nat × Nat × Nat)) (hnd : (entriesKeys es).Nodup)
    (e : Nat × Nat × Nat) (he : e ∈ es) : entriesGet es e.1 = some e.2 := by
  induction es with
  | nil => simp at he
  | cons f rest ih =>
    simp only [entriesKeys, List.map_cons, List.nodup_cons] at hnd
    rcases List.mem_cons.mp he with h | h
    · rw [h]
      simp [entriesGet]
    · have hne : ¬ f.1 = e.1 := by
        intro hx
        exact hnd.1 (hx ▸ (List.mem_map.mpr ⟨e, h, rfl⟩))
      simp only [entriesGet, hne, if_false]
      exact ih (by simpa [entriesKeys] using hnd.2) h

theorem entriesGet_remove_ne (es : List (Nat × Nat × Nat)) (k t : Nat) (hne : ¬ t = k) :
    entriesGet (entriesRemove es k) t = entriesGet es t := by
  induction es with
  | nil => rfl
  | cons e rest ih =>
    by_cases hek : e.1 = k
    · have het : ¬ e.1 = t := by
        intro h
        exact hne (h ▸ hek)
      have hdrop : entriesRemove (e :: rest) k = entriesRemove rest k := by
        unfold entriesRemove
        simp [List.filter_cons, hek]
      rw [hdrop, ih]
      simp [entriesGet, het]
    · have hkeep : entriesRemove (e :: rest) k = e :: entriesRemove rest k := by
        unfold entriesRemove
        simp [List.filter_cons, hek]
      rw [hkeep]
      by_cases het : e.1 = t
      · simp [entriesGet, het]
      · simp only [entriesGet, het, if_false]
        exact ih

theorem entriesRemove_sublist (es : List (Nat × Nat × Nat)) (k : Nat) :
    (entriesRemove es k).Sublist es :=
  List.filter_sublist es

theorem entriesRemove_mem (es : List (Nat × Nat × Nat)) (k : Nat) (e : Nat × Nat × Nat)
    (h : e ∈ entriesRemove es k) : e ∈ es ∧ ¬ e.1 = k := by
  unfold entriesRemove at h
  have hm := List.mem_filter.mp h
  refine ⟨hm.1, ?_⟩
  have h2 := hm.2
  simpa using h2

theorem entriesRemove_length_of_mem (es : List (Nat × Nat × Nat))
    (hnd : (entriesKeys es).Nodup) (k : Nat) (v : Nat × Nat)
    (h : entriesGet es k = some v) :
    (entriesRemove es k).length + 1 = es.length := by
  induction es with
  | nil => simp [entriesGet] at h
  | cons e rest ih =>
    simp only [entriesKeys, List.map_cons, List.nodup_cons] at hnd
    by_cases hek : e.1 = k
    · have hrest : entriesRemove rest k = rest := by
        unfold entriesRemove
        apply List.filter_eq_self.mpr
        intro f hf
        have hnef : ¬ f.1 = k := by
          intro hx
          apply hnd.1
          have hm : f.1 ∈ List.map (fun e => e.1) rest := List.mem_map.mpr ⟨f, hf, rfl⟩
          rw [hx] at hm
          rw [hek]
          exact hm
        simp [hnef]
      have hdrop : entriesRemove (e :: rest) k = entriesRemove rest k := by
        unfold entriesRemove
        simp [List.filter_cons, hek]
      rw [hdrop, hrest]
      simp
    · have hkeep : entriesRemove (e :: rest) k = e :: entriesRemove rest k := by
        unfold entriesRemove
        simp [List.filter_cons, hek]
      simp only [entriesGet, hek, if_false] at h
      have ihh := ih (by simpa [entriesKeys] using hnd.2) h
      rw [hkeep]
      simp only [List.length_cons]
      omega

theorem entriesRemove_sum_of_mem (es : List (Nat × Nat × Nat))
    (hnd : (entriesKeys es).Nodup) (k : Nat) (v : Nat × Nat)
    (h : entriesGet es k = some v) :
    (es.map (fun e => e.2.2)).sum = v.2 + ((entriesRemove es k).map (fun e => e.2.2)).sum := by
  induction es with
  | nil => simp [entriesGet] at h
  | cons e rest ih =>
    simp only [entriesKeys, List.map_cons, List.nodup_cons] at hnd
    by_cases hek : e.1 = k
    · have hrest : entriesRemove rest k = rest := by
        unfold entriesRemove
        apply List.filter_eq_self.mpr
        intro f hf
        have hnef : ¬ f.1 = k := by
          intro hx
          apply hnd.1
          have hm : f.1 ∈ List.map (fun e => e.1) rest := List.mem_map.mpr ⟨f, hf, rfl⟩
          rw [hx] at hm
          rw [hek]
          exact hm
        simp [hnef]
      have hdrop : entriesRemove (e :: rest) k = entriesRemove rest k := by
        unfold entriesRemove
        simp [List.filter_cons, hek]
      have hv : v = e.2 := by
        simp only [entriesGet, hek, if_true] at h
        cases h
        rfl
      rw [hdrop, hrest, hv]
      simp
    · have hkeep : entriesRemove (e :: rest) k = e :: entriesRemove rest k := by
        unfold entriesRemove
        simp [List.filter_cons, hek]
      simp only [entriesGet, hek, if_false] at h
      have ihh := ih (by simpa [entriesKeys] using hnd.2) h
      rw [hkeep]
      simp only [List.map_cons, List.sum_cons, ihh]
      omega

theorem writeRange_eq_of_outside (f : Nat → Nat) (st : Nat) (bs : List Nat) (x : Nat)
    (h : x < st ∨ st + bs.length ≤ x) : writeRange f st bs x = f x := by
  unfold writeRange
  rw [if_neg]
  omega

theorem rotateRange_eq_of_outside (f : Nat → Nat) (start stop k x : Nat)
    (h : x < start ∨ stop ≤ x) : rotateRange f start stop k x = f x := by
  unfold rotateRange
  rw [if_neg]
  omega

theorem rotateRange_shift (f : Nat → Nat) (start stop k x : Nat)
    (h1 : start ≤ x) (h2 : x + k < stop) :
    rotateRange f start stop k x = f (x + k) := by
  unfold rotateRange
  rw [if_pos ⟨h1, by omega⟩]
  have hm : x - start + k < stop - start := by omega
  rw [Nat.mod_eq_of_lt hm]
  congr 1
  omega

theorem readRange_congr (f g : Nat → Nat) (a b len : Nat)
    (h : ∀ i, i < len → f (a + i) = g (b + i)) : readRange f a len = readRange g b len := by
  unfold readRange
  apply List.map_congr_left
  intro i hi
  exact h i (List.mem_range.mp hi)

theorem sum_map_filter_split (l : List (Nat × Nat)) (q : Nat × Nat → Bool) :
    ((l.filter q).map (fun e => e.2)).sum + ((l.filter (fun x => !q x)).map (fun e => e.2)).sum =
      (l.map (fun e => e.2)).sum := by
  induction l with
  | nil => simp
  | cons e rest ih =>
    by_cases hq : q e
    · simp [List.filter_cons, hq, List.sum_cons]
      omega
    · simp only [List.filter_cons, hq, Bool.not_false, if_neg, cond_false, cond_true]
      simp only [Bool.not_eq_true] at hq
      simp [hq, List.sum_cons]
      omega

theorem disjoint_sum_le (n : Nat) :
    ∀ (l : List (Nat × Nat)) (A M : Nat), l.length = n →
    l.Pairwise (fun e f => e.1 + e.2 ≤ f.1 ∨ f.1 + f.2 ≤ e.1) →
    (∀ e ∈ l, A ≤ e.1 ∧ e.1 + e.2 ≤ M) →
    ((l.map (fun e => e.2)).sum ≤ M - A) := by
  induction n using Nat.strong_induction_on with
  | _ n ih =>
    intro l A M hlen hpw hbound
    cases l with
    | nil => simp
    | cons e rest =>
      have hpwe := List.pairwise_cons.mp hpw
      have hbe := hbound e (List.mem_cons_self e rest)
      have hlow : ∀ f ∈ rest.filter (fun f => f.1 + f.2 ≤ e.1), A ≤ f.1 ∧ f.1 + f.2 ≤ e.1 := by
        intro f hf
        have hm := List.mem_filter.mp hf
        exact ⟨(hbound f (List.mem_cons_of_mem e hm.1)).1, by simpa using hm.2⟩
      have hhigh : ∀ f ∈ rest.filter (fun f => !(decide (f.1 + f.2 ≤ e.1))),
          e.1 + e.2 ≤ f.1 ∧ f.1 + f.2 ≤ M := by
        intro f hf
        have hm := List.mem_filter.mp hf
        have hnle : ¬ (f.1 + f.2 ≤ e.1) := by simpa using hm.2
        have hdis := hpwe.1 f hm.1
        refine ⟨?_, (hbound f (List.mem_cons_of_mem e hm.1)).2⟩
        rcases hdis with hd | hd
        · exact hd
        · exact absurd hd hnle
      have hsplit := sum_map_filter_split rest (fun f => decide (f.1 + f.2 ≤ e.1))
      have hlen1 : (rest.filter (fun f => decide (f.1 + f.2 ≤ e.1))).length < n := by
        have := List.length_filter_le (fun f => decide (f.1 + f.2 ≤ e.1)) rest
        simp only [List.length_cons] at hlen
        omega
      have hlen2 : (rest.filter (fun f => !(decide (f.1 + f.2 ≤ e.1)))).length < n := by
        have := List.length_filter_le (fun f => !(decide (f.1 + f.2 ≤ e.1))) rest
        simp only [List.length_cons] at hlen
        omega
      have hsub1 : (rest.filter (fun f => decide (f.1 + f.2 ≤ e.1))).Pairwise
          (fun e f => e.1 + e.2 ≤ f.1 ∨ f.1 + f.2 ≤ e.1) :=
        List.Pairwise.sublist (List.filter_sublist rest) hpwe.2
      have hsub2 : (rest.filter (fun f => !(decide (f.1 + f.2 ≤ e.1)))).Pairwise
          (fun e f => e.1 + e.2 ≤ f.1 ∨ f.1 + f.2 ≤ e.1) :=
        List.Pairwise.sublist (List.filter_sublist rest) hpwe.2
      have h1 := ih _ hlen1 (rest.filter (fun f => decide (f.1 + f.2 ≤ e.1))) A e.1 rfl hsub1
        (by
          intro f hf
          exact hlow f (by simpa using hf))
      have h2 := ih _ hlen2 (rest.filter (fun f => !(decide (f.1 + f.2 ≤ e.1)))) (e.1 + e.2) M rfl hsub2
        (by
          intro f hf
          exact hhigh f hf)
      simp only [List.map_cons, List.sum_cons]
      have hs := hsplit
      omega

theorem entriesDisjoint_pair (es : List (Nat × Nat × Nat))
    (hpw : es.Pairwise (fun e f => e.2.1 + e.2.2 ≤ f.2.1 ∨ f.2.1 + f.2.2 ≤ e.2.1))
    (e f : Nat × Nat × Nat) (he : e ∈ es) (hf : f ∈ es) (hne : e ≠ f) :
    e.2.1 + e.2.2 ≤ f.2.1 ∨ f.2.1 + f.2.2 ≤ e.2.1 := by
  have hsymm : Symmetric (fun e f : Nat × Nat × Nat =>
      e.2.1 + e.2.2 ≤ f.2.1 ∨ f.2.1 + f.2.2 ≤ e.2.1) := by
    intro a b h
    omega
  exact List.Pairwise.forall hsymm hpw he hf hne

theorem recomputeGo_spec (es : List (Nat × Nat × Nat)) (hnd : (entriesKeys es).Nodup)
    (todo : List (Nat × Nat × Nat)) :
    ∀ (prev : Nat) (pv : Nat × Nat),
    entriesGet es prev = some pv →
    (∀ e ∈ todo, e ∈ es) →
    ∃ rk rv, recomputeGo es todo prev = rk ∧ entriesGet es rk = some rv ∧
      pv.1 ≤ rv.1 ∧ ∀ e ∈ todo, e.2.1 ≤ rv.1 := by
  induction todo with
  | nil =>
    intro prev pv hget _
    exact ⟨prev, pv, rfl, hget, Nat.le_refl _, by simp⟩
  | cons e rest ih =>
    intro prev pv hget hsub
    have hoff : ((entriesGet es prev).map (fun v => v.1)).getD 0 = pv.1 := by
      rw [hget]
      rfl
    unfold recomputeGo
    rw [hoff]
    by_cases hlt : pv.1 < e.2.1
    · simp only [hlt, if_true]
      have hme : e ∈ es := hsub e (List.mem_cons_self e rest)
      have hgete : entriesGet es e.1 = some e.2 := mem_entriesGet es hnd e hme
      obtain ⟨rk, rv, hrk, hget2, hle2, hall2⟩ := ih e.1 e.2 hgete
        (fun f hf => hsub f (List.mem_cons_of_mem e hf))
      refine ⟨rk, rv, hrk, hget2, by omega, ?_⟩
      intro f hf
      rcases List.mem_cons.mp hf with h | h
      · rw [h]
        exact hle2
      · exact hall2 f h
    · simp only [hlt, if_false]
      obtain ⟨rk, rv, hrk, hget2, hle2, hall2⟩ := ih prev pv hget
        (fun f hf => hsub f (List.mem_cons_of_mem e hf))
      refine ⟨rk, rv, hrk, hget2, hle2, ?_⟩
      intro f hf
      rcases List.mem_cons.mp hf with h | h
      · rw [h]
        omega
      · exact hall2 f h

theorem recomputeFurthest_spec (es : List (Nat × Nat × Nat))
    (hnd : (entriesKeys es).Nodup) (hne : es ≠ []) :
    ∃ rv, entriesGet es (recomputeFurthest es) = some rv ∧ ∀ e ∈ es, e.2.1 ≤ rv.1 := by
  cases es with
  | nil => exact absurd rfl hne
  | cons e rest =>
    have hgete : entriesGet (e :: rest) e.1 = some e.2 :=
      mem_entriesGet (e :: rest) hnd e (List.mem_cons_self e rest)
    obtain ⟨rk, rv, hrk, hget2, hle2, hall2⟩ := recomputeGo_spec (e :: rest) hnd rest e.1 e.2
      hgete (fun f hf => List.mem_cons_of_mem e hf)
    refine ⟨rv, ?_, ?_⟩
    · show entriesGet (e :: rest) (recomputeGo (e :: rest) rest e.1) = some rv
      rw [hrk]
      exact hget2
    · intro f hf
      rcases List.mem_cons.mp hf with h | h
      · rw [h]
        exact hle2
      · exact hall2 f h

theorem entriesGet_adjust (es1 : List (Nat × Nat × Nat)) (doff dlen t : Nat) :
    entriesGet (es1.map (fun e => if doff < e.2.1 then (e.1, e.2.1 - dlen, e.2.2) else e)) t =
      (entriesGet es1 t).map (fun v => if doff < v.1 then (v.1 - dlen, v.2) else v) := by
  induction es1 with
  | nil => rfl
  | cons e rest ih =>
    by_cases het : e.1 = t
    · by_cases hoff : doff < e.2.1
      · simp [entriesGet, het, hoff]
      · simp [entriesGet, het, hoff]
    · by_cases hoff : doff < e.2.1
      · simp only [List.map_cons, hoff, if_true, entriesGet, het, if_false]
        exact ih
      · simp only [List.map_cons, hoff, if_false, entriesGet, het]
        exact ih

theorem pagePacked_parts (p : Page) (h : pagePackedB p = true) :
    countOkB p = true ∧ furthestOkB p = true ∧
    (entriesKeys p.header.entries).Nodup ∧
    (∀ e ∈ p.header.entries, e.2.1 + e.2.2 ≤ packedEnd p) ∧
    p.header.entries.Pairwise (fun e f => e.2.1 + e.2.2 ≤ f.2.1 ∨ f.2.1 + f.2.2 ≤ e.2.1) ∧
    (p.header.entries.map (fun e => e.2.2)).sum = packedEnd p ∧
    packedEnd p + 8 + 6 * p.header.entries.length ≤ PAGE_SIZE ∧
    (∀ e ∈ p.header.entries, 0 < e.2.2) := by
  unfold pagePackedB at h
  simp only [Bool.and_eq_true, decide_eq_true_eq, List.all_eq_true] at h
  obtain ⟨⟨⟨⟨⟨⟨⟨h1, h2⟩, h3⟩, h4⟩, h5⟩, h6⟩, h7⟩, h8⟩ := h
  refine ⟨h1, h2, h3, ?_, h5, h6, h7, ?_⟩
  · intro e he
    exact h4 e he
  · intro e he
    exact h8 e he

theorem deleteValueFull_eq_furthest (p : Page) (s doff dlen : Nat)
    (hcon : entriesContains p.header.entries s = true)
    (hfs_eq : p.header.furthest_slot = some s)
    (hget : entriesGet p.header.entries s = some (doff, dlen)) :
    deleteValueFull p s = (DelOutcome.ok,
      { header :=
          { page_id := p.header.page_id
            number_of_slots := p.header.number_of_slots - 1
            furthest_slot := some (recomputeFurthest (entriesRemove p.header.entries s))
            max_slot_id := p.header.max_slot_id
            entries := entriesRemove p.header.entries s }
        data := writeRange p.data doff (List.replicate dlen 0) }) := by
  unfold deleteValueFull
  rw [if_neg (fun hc => hc hcon), hfs_eq]
  simp [hget]

theorem deleteValueFull_eq_shift (p : Page) (s doff dlen fs : Nat) (fe : Nat × Nat)
    (hcon : entriesContains p.header.entries s = true)
    (hfs_eq : p.header.furthest_slot = some fs)
    (hget : entriesGet p.header.entries s = some (doff, dlen))
    (hsf : ¬ s = fs)
    (hfe : entriesGet (entriesRemove p.header.entries s) fs = some fe) :
    deleteValueFull p s = (DelOutcome.ok,
      { header :=
          { page_id := p.header.page_id
            number_of_slots := p.header.number_of_slots - 1
            furthest_slot := p.header.furthest_slot
            max_slot_id := p.header.max_slot_id
            entries := (entriesRemove p.header.entries s).map
              (fun e => if doff < e.2.1 then (e.1, e.2.1 - dlen, e.2.2) else e) }
        data := rotateRange (writeRange p.data doff (List.replicate dlen 0))
          doff (fe.1 + fe.2) dlen }) := by
  unfold deleteValueFull
  rw [if_neg (fun hc => hc hcon), hfs_eq]
  simp [hget, hsf, hfe]

theorem entriesKeys_remove_nodup (es : List (Nat × Nat × Nat)) (k : Nat)
    (hnd : (entriesKeys es).Nodup) : (entriesKeys (entriesRemove es k)).Nodup := by
  have hsub : (entriesKeys (entriesRemove es k)).Sublist (entriesKeys es) :=
    List.Sublist.map _ (entriesRemove_sublist es k)
  exact List.Nodup.sublist hsub hnd

theorem c3_main (p : Page) (s doff dlen : Nat)
    (hwf : pagePackedB p = true)
    (hget : entriesGet p.header.entries s = some (doff, dlen)) :
    (deleteValueFull p s).1 = DelOutcome.ok ∧
    (∀ t, t ≠ s → getValue (deleteValueFull p s).2 t = getValue p t) ∧
    freeD (deleteValueFull p s).2 = freeD p + dlen + 6 := by
  obtain ⟨hcount, hfok, hnd, hbnd, hpw, hsum, hfit, hpos⟩ := pagePacked_parts p hwf
  have hcon : entriesContains p.header.entries s = true :=
    entriesContains_of_get p.header.entries s _ hget
  have hmem_s : (s, (doff, dlen)) ∈ p.header.entries := entriesGet_mem _ s _ hget
  have hdlen_pos : 0 < dlen := hpos (s, (doff, dlen)) hmem_s
  have hne_es : p.header.entries ≠ [] := by
    intro h0
    rw [h0] at hcon
    cases hcon
  have hfs2 : ∃ fs, p.header.furthest_slot = some fs ∧
      entriesContains p.header.entries fs = true := by
    unfold furthestOkB at hfok
    cases hx : p.header.furthest_slot with
    | none =>
      rw [hx] at hfok
      rw [List.isEmpty_iff] at hfok
      exact absurd hfok hne_es
    | some fs =>
      rw [hx] at hfok
      simp only [Bool.and_eq_true] at hfok
      exact ⟨fs, rfl, hfok.2⟩
  obtain ⟨fs, hfs_eq, hfs_con⟩ := hfs2
  obtain ⟨fv, hfv⟩ := entriesGet_of_contains _ fs hfs_con
  have hpe : packedEnd p = fv.1 + fv.2 := by
    simp [packedEnd, hfs_eq, hfv]
  have hlen_rm : (entriesRemove p.header.entries s).length + 1 = p.header.entries.length :=
    entriesRemove_length_of_mem _ hnd s _ hget
  have hsum_rm : (p.header.entries.map (fun e => e.2.2)).sum =
      dlen + ((entriesRemove p.header.entries s).map (fun e => e.2.2)).sum :=
    entriesRemove_sum_of_mem _ hnd s _ hget
  have hnd1 : (entriesKeys (entriesRemove p.header.entries s)).Nodup :=
    entriesKeys_remove_nodup _ s hnd
  have hfreeD : freeD p = PAGE_SIZE - (6 * p.header.entries.length + 8 + packedEnd p) := by
    unfold freeD getLargestFreeContiguousSpace getHeaderSize
    have hlen0 : ¬ p.header.entries.length = 0 := by
      intro h0
      exact hne_es (List.length_eq_zero.mp h0)
    rw [if_neg hlen0, hfs_eq]
    simp only [hfv, Option.getD_some]
    rw [hpe]
  have hspe : doff + dlen ≤ packedEnd p := hbnd (s, (doff, dlen)) hmem_s
  -- dichotomy for every entry surviving the removal
  have hdicho : ∀ e ∈ entriesRemove p.header.entries s,
      e.2.1 + e.2.2 ≤ doff ∨ doff + dlen ≤ e.2.1 := by
    intro e he
    obtain ⟨hees, hnek⟩ := entriesRemove_mem _ s e he
    have hnepair : e ≠ (s, (doff, dlen)) := by
      intro h0
      rw [h0] at hnek
      exact hnek rfl
    have := entriesDisjoint_pair _ hpw e (s, (doff, dlen)) hees hmem_s hnepair
    simpa using this
  by_cases hsf : s = fs
  · -- the deleted slot was the furthest one
    subst hsf
    have hfveq : fv = (doff, dlen) := by
      rw [hget] at hfv
      cases hfv
      rfl
    subst hfveq
    have hpe2 : packedEnd p = doff + dlen := hpe
    have hdel := deleteValueFull_eq_furthest p s doff dlen hcon hfs_eq hget
    rw [hdel]
    refine ⟨rfl, ?_, ?_⟩
    · -- values of the surviving slots are untouched
      intro t hts
      have hgr : entriesGet (entriesRemove p.header.entries s) t =
          entriesGet p.header.entries t := entriesGet_remove_ne _ s t hts
      unfold getValue
      simp only [hgr]
      cases hgt : entriesGet p.header.entries t with
      | none => rfl
      | some tv =>
        have hmem_t1 : (t, tv) ∈ entriesRemove p.header.entries s := by
          have : entriesGet (entriesRemove p.header.entries s) t = some tv := by
            rw [hgr, hgt]
          exact entriesGet_mem _ t tv this
        have hend_t : tv.1 + tv.2 ≤ doff := by
          rcases hdicho (t, tv) hmem_t1 with h | h
          · exact h
          · exfalso
            have hmem_t : (t, tv) ∈ p.header.entries := (entriesRemove_mem _ s _ hmem_t1).1
            have h1 := hbnd (t, tv) hmem_t
            have h2 := hpos (t, tv) hmem_t
            rw [hpe] at h1
            simp only at h1 h2 h
            omega
        show some (readRange (writeRange p.data doff (List.replicate dlen 0)) tv.1 tv.2) =
          some (readRange p.data tv.1 tv.2)
        congr 1
        apply readRange_congr
        intro i hi
        apply writeRange_eq_of_outside
        left
        simp only at hend_t
        omega
    · -- free space grows by the deleted length plus the 6-byte slot header
      have hpe2 : packedEnd p = doff + dlen := by simpa using hpe
      rw [hfreeD]
      by_cases hemp : entriesRemove p.header.entries s = []
      · have hl0 : (entriesRemove p.header.entries s).length = 0 := by
          rw [hemp]
          rfl
        have hn1 : p.header.entries.length = 1 := by omega
        have hsumE : packedEnd p = dlen := by
          rw [← hsum, hsum_rm, hemp]
          simp
        unfold freeD getLargestFreeContiguousSpace getHeaderSize
        simp only [hemp, List.length_nil, if_pos]
        have hfit2 := hfit
        rw [hsumE, hn1] at hfit2
        rw [hn1, hsumE]
        simp only [Option.getD_some]
        omega
      · obtain ⟨rv, hrv_get, hrv_max⟩ := recomputeFurthest_spec _ hnd1 hemp
        have hmem_rv1 : (recomputeFurthest (entriesRemove p.header.entries s), rv) ∈
            entriesRemove p.header.entries s := entriesGet_mem _ _ _ hrv_get
        have hmem_rv : (recomputeFurthest (entriesRemove p.header.entries s), rv) ∈
            p.header.entries := (entriesRemove_mem _ s _ hmem_rv1).1
        have hrv_pos : 0 < rv.2 := hpos _ hmem_rv
        have hrv_end_le : rv.1 + rv.2 ≤ doff := by
          rcases hdicho _ hmem_rv1 with h | h
          · exact h
          · exfalso
            have h1 := hbnd _ hmem_rv
            rw [hpe2] at h1
            simp only at h1 h
            omega
        have hsum1 : ((entriesRemove p.header.entries s).map (fun e => e.2.2)).sum = doff := by
          rw [hsum] at hsum_rm
          omega
        have hrv_end_ge : doff ≤ rv.1 + rv.2 := by
          have hpairs : ((entriesRemove p.header.entries s).map (fun e => e.2)).Pairwise
              (fun e f => e.1 + e.2 ≤ f.1 ∨ f.1 + f.2 ≤ e.1) := by
            rw [List.pairwise_map]
            exact List.Pairwise.sublist (entriesRemove_sublist _ _) hpw
          have hball : ∀ v ∈ (entriesRemove p.header.entries s).map (fun e => e.2),
              0 ≤ v.1 ∧ v.1 + v.2 ≤ rv.1 + rv.2 := by
            intro v hv
            obtain ⟨e, he, hev⟩ := List.mem_map.mp hv
            refine ⟨Nat.zero_le _, ?_⟩
            have hoffle : e.2.1 ≤ rv.1 := hrv_max e he
            by_cases heq : e = (recomputeFurthest (entriesRemove p.header.entries s), rv)
            · rw [heq] at hev
              rw [← hev]
            · have hdis := entriesDisjoint_pair _ hpw e _
                ((entriesRemove_mem _ s _ he).1) hmem_rv heq
              rw [← hev]
              rcases hdis with h | h
              · simp only at h
                omega
              · simp only at h
                omega
          have hms := disjoint_sum_le ((entriesRemove p.header.entries s).map (fun e => e.2)).length
            ((entriesRemove p.header.entries s).map (fun e => e.2)) 0 (rv.1 + rv.2) rfl hpairs hball
          rw [List.map_map] at hms
          have hcomp : (((entriesRemove p.header.entries s)).map
              ((fun e : Nat × Nat => e.2) ∘ (fun e : Nat × Nat × Nat => e.2))).sum =
              ((entriesRemove p.header.entries s).map (fun e => e.2.2)).sum := rfl
          rw [hcomp, hsum1] at hms
          omega
        have hrv_end : rv.1 + rv.2 = doff := by omega
        unfold freeD getLargestFreeContiguousSpace getHeaderSize
        have hlen1 : ¬ (entriesRemove p.header.entries s).length = 0 := by
          intro h0
          exact hemp (List.length_eq_zero.mp h0)
        simp only [hlen1, if_false, hrv_get, Option.getD_some]
        rw [hrv_end]
        have hfit2 := hfit
        rw [hpe2] at hfit2
        rw [hpe2]
        omega
  · -- the deleted slot was not the furthest one
    have hfssym : ¬ fs = s := fun h => hsf h.symm
    have hfe : entriesGet (entriesRemove p.header.entries s) fs = some fv := by
      rw [entriesGet_remove_ne _ s fs hfssym, hfv]
    have hmem_fs : (fs, fv) ∈ p.header.entries := entriesGet_mem _ fs fv hfv
    have hnefs : (fs, fv) ≠ (s, (doff, dlen)) := by
      intro h0
      injection h0 with h1 _
      exact hfssym h1
    have hfv1_ge : doff + dlen ≤ fv.1 := by
      have hdis := entriesDisjoint_pair _ hpw (fs, fv) _ hmem_fs hmem_s hnefs
      rcases hdis with h | h
      · exfalso
        simp only at h
        have hx : doff + dlen ≤ packedEnd p := hspe
        rw [hpe] at hx
        omega
      · simpa using h
    have hdel := deleteValueFull_eq_shift p s doff dlen fs fv hcon hfs_eq hget hsf hfe
    rw [hdel]
    refine ⟨rfl, ?_, ?_⟩
    · intro t hts
      have hgr : entriesGet (entriesRemove p.header.entries s) t =
          entriesGet p.header.entries t := entriesGet_remove_ne _ s t hts
      unfold getValue
      rw [entriesGet_adjust, hgr]
      cases hgt : entriesGet p.header.entries t with
      | none => rfl
      | some tv =>
        have hmem_t1 : (t, tv) ∈ entriesRemove p.header.entries s := by
          have hx : entriesGet (entriesRemove p.header.entries s) t = some tv := by
            rw [hgr, hgt]
          exact entriesGet_mem _ t tv hx
        have hmem_t : (t, tv) ∈ p.header.entries := (entriesRemove_mem _ s _ hmem_t1).1
        have hpos_t : 0 < tv.2 := hpos _ hmem_t
        have hend_t : tv.1 + tv.2 ≤ packedEnd p := hbnd _ hmem_t
        rw [hpe] at hend_t
        simp only at hend_t hpos_t
        rcases hdicho (t, tv) hmem_t1 with hcase | hcase
        · simp only at hcase
          have hnlt : ¬ doff < tv.1 := by omega
          simp only [Option.map_some', hnlt, if_false]
          show some (readRange (rotateRange (writeRange p.data doff (List.replicate dlen 0))
            doff (fv.1 + fv.2) dlen) tv.1 tv.2) = some (readRange p.data tv.1 tv.2)
          congr 1
          apply readRange_congr
          intro i hi
          rw [rotateRange_eq_of_outside _ _ _ _ _ (by left; omega)]
          rw [writeRange_eq_of_outside _ _ _ _ (by left; omega)]
        · simp only at hcase
          have hlt : doff < tv.1 := by omega
          simp only [Option.map_some', hlt, if_true]
          show some (readRange (rotateRange (writeRange p.data doff (List.replicate dlen 0))
            doff (fv.1 + fv.2) dlen) (tv.1 - dlen) tv.2) = some (readRange p.data tv.1 tv.2)
          congr 1
          apply readRange_congr
          intro i hi
          have hx1 : doff ≤ tv.1 - dlen + i := by omega
          have hx2 : (tv.1 - dlen + i) + dlen < fv.1 + fv.2 := by omega
          rw [rotateRange_shift _ _ _ _ _ hx1 hx2]
          rw [writeRange_eq_of_outside _ _ _ _ (by
            right
            rw [List.length_replicate]
            omega)]
          congr 1
          omega
    · have hpe2 : packedEnd p = fv.1 + fv.2 := hpe
      rw [hfreeD]
      unfold freeD getLargestFreeContiguousSpace getHeaderSize
      have hne1 : entriesRemove p.header.entries s ≠ [] := by
        intro h0
        rw [h0] at hfe
        cases hfe
      have hlen2 : ¬ ((entriesRemove p.header.entries s).map
          (fun e => if doff < e.2.1 then (e.1, e.2.1 - dlen, e.2.2) else e)).length = 0 := by
        rw [List.length_map]
        intro h0
        exact hne1 (List.length_eq_zero.mp h0)
      simp only [hlen2, if_false, hfs_eq]
      rw [entriesGet_adjust, hfe]
      have hltf : doff < fv.1 := by omega
      simp only [Option.map_some', hltf, if_true, Option.getD_some]
      rw [List.length_map]
      have hfit2 := hfit
      rw [hpe2] at hfit2
      rw [hpe2]
      omega

/-- C3 (amended): on every packed page (specification invariants 1–5, with
non-empty records), after `delete_value(s)` succeeds every remaining slot
still resolves via `get_value` to exactly its original bytes, and the largest
contiguous free space afterwards equals the free space before the delete plus
the deleted record's length plus `H_SLOT` (6 bytes) — the removed slot's
header entry is reclaimed as well, so the increase is `len + 6`, not `len`. -/
theorem c3_amended_theorem (p : Page) (s doff dlen : Nat)
    (hwf : pagePackedB p = true)
    (hget : entriesGet p.header.entries s = some (doff, dlen)) :
    (deleteValueFull p s).1 = DelOutcome.ok ∧
    (∀ t, t ≠ s → getValue (deleteValueFull p s).2 t = getValue p t) ∧
    freeD (deleteValueFull p s).2 = freeD p + dlen + 6 :=
  c3_main p s doff dlen hwf hget

/-- C3 witness: two 20-byte records, slot 0 deleted; slot 1 keeps its bytes
and the free space grows from 4036 to 4062. -/
theorem c3_witness :
    pagePackedB c3page = true ∧
    entriesGet c3page.header.entries 0 = some (0, 20) ∧
    ((deleteValueFull c3page 0).1 = DelOutcome.ok ∧
      (∀ t, t ≠ 0 → getValue (deleteValueFull c3page 0).2 t = getValue c3page t) ∧
      freeD (deleteValueFull c3page 0).2 = freeD c3page + 20 + 6) :=
  ⟨by decide, by decide, c3_amended_theorem c3page 0 0 20 (by decide) (by decide)⟩

/-- C3 counterexample: the claim as stated says the free space grows by
exactly the deleted record's length; deleting the 20-byte record in slot 0 of
a page with two 20-byte records moves the free space from 4036 to 4062, an
increase of 26, not 20. -/
theorem c3_counterexample :
    entriesGet c3page.header.entries 0 = some (0, 20) ∧
    delOutcome c3page 0 = DelOutcome.ok ∧
    freeD (delPage c3page 0) ≠ freeD c3page + 20 :=
  ⟨by decide, by decide, by decide⟩

/-! # Claim C4 lemmas (serialization round trip) -/

theorem getD_range_map (f : Nat → Nat) (n i : Nat) (hi : i < n) :
    ((List.range n).map f).getD i 0 = f i := by
  rw [List.getD_eq_getElem?_getD, List.getElem?_map, List.getElem?_range hi]
  rfl

theorem readU16_range_map (f : Nat → Nat) (pos : Nat) (h : pos + 1 < PAGE_SIZE) :
    readU16 ((List.range PAGE_SIZE).map f) pos = f pos + 256 * f (pos + 1) := by
  unfold readU16
  rw [getD_range_map _ _ _ (by omega), getD_range_map _ _ _ h]

theorem writeU16_at_low (f : Nat → Nat) (pos v : Nat) : writeU16 f pos v pos = v % 256 := by
  unfold writeU16
  rw [if_pos rfl]

theorem writeU16_at_high (f : Nat → Nat) (pos v : Nat) :
    writeU16 f pos v (pos + 1) = v / 256 % 256 := by
  unfold writeU16
  rw [if_neg (by omega), if_pos rfl]

theorem writeU16_ne (f : Nat → Nat) (pos v x : Nat) (h1 : ¬ x = pos) (h2 : ¬ x = pos + 1) :
    writeU16 f pos v x = f x := by
  unfold writeU16
  rw [if_neg h1, if_neg h2]

theorem u16_round (v : Nat) (h : v < 65536) : v % 256 + 256 * (v / 256 % 256) = v := by
  omega

theorem writeEntriesImg_high (es : List (Nat × Nat × Nat)) :
    ∀ (j : Nat) (f : Nat → Nat) (x : Nat),
    8 + 6 * (j + es.length) ≤ PAGE_SIZE →
    PAGE_SIZE - 8 - 6 * j ≤ x →
    writeEntriesImg es j f x = f x := by
  induction es with
  | nil => intro j f x _ _; rfl
  | cons e rest ih =>
    intro j f x hfit hx
    unfold writeEntriesImg
    rw [ih (j + 1) _ x (by simp only [List.length_cons] at hfit; omega) (by omega)]
    simp only [List.length_cons] at hfit
    rw [writeU16_ne _ _ _ _ (by omega) (by omega)]
    rw [writeU16_ne _ _ _ _ (by omega) (by omega)]
    rw [writeU16_ne _ _ _ _ (by omega) (by omega)]

theorem writeEntriesImg_low (es : List (Nat × Nat × Nat)) :
    ∀ (j : Nat) (f : Nat → Nat) (x : Nat),
    8 + 6 * (j + es.length) ≤ PAGE_SIZE →
    x < PAGE_SIZE - 8 - 6 * (j + es.length) →
    writeEntriesImg es j f x = f x := by
  induction es with
  | nil => intro j f x _ _; rfl
  | cons e rest ih =>
    intro j f x hfit hx
    unfold writeEntriesImg
    simp only [List.length_cons] at hfit hx
    rw [ih (j + 1) _ x (by omega) (by omega)]
    rw [writeU16_ne _ _ _ _ (by omega) (by omega)]
    rw [writeU16_ne _ _ _ _ (by omega) (by omega)]
    rw [writeU16_ne _ _ _ _ (by omega) (by omega)]

theorem writeEntriesImg_entry (es : List (Nat × Nat × Nat)) :
    ∀ (j : Nat) (f : Nat → Nat) (jr : Nat) (e : Nat × Nat × Nat),
    8 + 6 * (j + es.length) ≤ PAGE_SIZE →
    es.get? jr = some e →
    writeEntriesImg es j f (PAGE_SIZE - (10 + 6 * (j + jr))) = e.1 % 256 ∧
    writeEntriesImg es j f (PAGE_SIZE - (10 + 6 * (j + jr)) + 1) = e.1 / 256 % 256 ∧
    writeEntriesImg es j f (PAGE_SIZE - (12 + 6 * (j + jr))) = e.2.1 % 256 ∧
    writeEntriesImg es j f (PAGE_SIZE - (12 + 6 * (j + jr)) + 1) = e.2.1 / 256 % 256 ∧
    writeEntriesImg es j f (PAGE_SIZE - (14 + 6 * (j + jr))) = e.2.2 % 256 ∧
    writeEntriesImg es j f (PAGE_SIZE - (14 + 6 * (j + jr)) + 1) = e.2.2 / 256 % 256 := by
  induction es with
  | nil =>
    intro j f jr e _ hjr
    simp at hjr
  | cons e0 rest ih =>
    intro j f jr e hfit hjr
    simp only [List.length_cons] at hfit
    cases jr with
    | zero =>
      have he : e = e0 := by
        simp only [List.get?] at hjr
        cases hjr
        rfl
      subst he
      unfold writeEntriesImg
      simp only [Nat.add_zero]
      refine ⟨?_, ?_, ?_, ?_, ?_, ?_⟩
      · rw [writeEntriesImg_high rest (j + 1) _ _ (by omega) (by omega)]
        rw [writeU16_ne _ _ _ _ (by omega) (by omega)]
        rw [writeU16_ne _ _ _ _ (by omega) (by omega)]
        rw [writeU16_at_low]
      · rw [writeEntriesImg_high rest (j + 1) _ _ (by omega) (by omega)]
        rw [writeU16_ne _ _ _ _ (by omega) (by omega)]
        rw [writeU16_ne _ _ _ _ (by omega) (by omega)]
        have : PAGE_SIZE - (10 + 6 * j) + 1 = (PAGE_SIZE - (10 + 6 * j)) + 1 := rfl
        rw [writeU16_at_high]
      · rw [writeEntriesImg_high rest (j + 1) _ _ (by omega) (by omega)]
        rw [writeU16_ne _ _ _ _ (by omega) (by omega)]
        rw [writeU16_at_low]
      · rw [writeEntriesImg_high rest (j + 1) _ _ (by omega) (by omega)]
        rw [writeU16_ne _ _ _ _ (by omega) (by omega)]
        rw [writeU16_at_high]
      · rw [writeEntriesImg_high rest (j + 1) _ _ (by omega) (by omega)]
        rw [writeU16_at_low]
      · rw [writeEntriesImg_high rest (j + 1) _ _ (by omega) (by omega)]
        rw [writeU16_at_high]
    | succ jr1 =>
      have hjr1 : rest.get? jr1 = some e := by
        simpa using hjr
      have harith10 : PAGE_SIZE - (10 + 6 * (j + (jr1 + 1))) =
          PAGE_SIZE - (10 + 6 * ((j + 1) + jr1)) := by
        have : j + (jr1 + 1) = (j + 1) + jr1 := by omega
        rw [this]
      have harith12 : PAGE_SIZE - (12 + 6 * (j + (jr1 + 1))) =
          PAGE_SIZE - (12 + 6 * ((j + 1) + jr1)) := by
        have : j + (jr1 + 1) = (j + 1) + jr1 := by omega
        rw [this]
      have harith14 : PAGE_SIZE - (14 + 6 * (j + (jr1 + 1))) =
          PAGE_SIZE - (14 + 6 * ((j + 1) + jr1)) := by
        have : j + (jr1 + 1) = (j + 1) + jr1 := by omega
        rw [this]
      unfold writeEntriesImg
      rw [harith10, harith12, harith14]
      exact ih (j + 1) _ jr1 e (by omega) hjr1

theorem entriesContains_append (es1 es2 : List (Nat × Nat × Nat)) (k : Nat) :
    entriesContains (es1 ++ es2) k = (entriesContains es1 k || entriesContains es2 k) := by
  induction es1 with
  | nil => simp [entriesContains]
  | cons e rest ih =>
    simp [entriesContains, ih, Bool.or_assoc]

theorem entriesInsert_fresh (es : List (Nat × Nat × Nat)) (k off len : Nat)
    (h : entriesContains es k = false) :
    entriesInsert es k off len = es ++ [(k, off, len)] := by
  unfold entriesInsert
  rw [if_neg]
  intro hc
  rw [h] at hc
  cases hc

theorem readTriples_succ (img : List Nat) (cnt j : Nat) (acc : List (Nat × Nat × Nat)) :
    readTriples img (cnt + 1) j acc =
      readTriples img cnt (j + 1)
        (entriesInsert acc (readU16 img (PAGE_SIZE - (10 + 6 * j)))
          (readU16 img (PAGE_SIZE - (12 + 6 * j)))
          (readU16 img (PAGE_SIZE - (14 + 6 * j)))) := rfl

theorem readTriples_build (img : List Nat) (tail : List (Nat × Nat × Nat)) :
    ∀ (j : Nat) (acc : List (Nat × Nat × Nat)),
    (∀ jr e, tail.get? jr = some e →
      readU16 img (PAGE_SIZE - (10 + 6 * (j + jr))) = e.1 ∧
      readU16 img (PAGE_SIZE - (12 + 6 * (j + jr))) = e.2.1 ∧
      readU16 img (PAGE_SIZE - (14 + 6 * (j + jr))) = e.2.2) →
    (∀ e ∈ tail, entriesContains acc e.1 = false) →
    (entriesKeys tail).Nodup →
    readTriples img tail.length j acc = acc ++ tail := by
  induction tail with
  | nil =>
    intro j acc _ _ _
    simp [readTriples]
  | cons e rest ih =>
    intro j acc hdec hfresh hnd
    have hd0 := hdec 0 e (by simp)
    rw [Nat.add_zero] at hd0
    rw [List.length_cons, readTriples_succ]
    rw [hd0.1, hd0.2.1, hd0.2.2]
    rw [entriesInsert_fresh acc e.1 e.2.1 e.2.2 (hfresh e (List.mem_cons_self e rest))]
    have hstep := ih (j + 1) (acc ++ [(e.1, e.2.1, e.2.2)])
      (by
        intro jr e2 hjr
        have := hdec (jr + 1) e2 (by simpa using hjr)
        have harith : j + (jr + 1) = (j + 1) + jr := by omega
        rw [harith] at this
        exact this)
      (by
        intro f hf
        rw [entriesContains_append]
        have h1 : entriesContains acc f.1 = false := hfresh f (List.mem_cons_of_mem e hf)
        have h2 : entriesContains [(e.1, e.2.1, e.2.2)] f.1 = false := by
          simp only [entriesKeys, List.map_cons, List.nodup_cons] at hnd
          have hne : ¬ e.1 = f.1 := by
            intro hx
            exact hnd.1 (hx ▸ List.mem_map.mpr ⟨f, hf, rfl⟩)
          simp [entriesContains, hne]
        rw [h1, h2]
        rfl)
      (by
        simp only [entriesKeys, List.map_cons, List.nodup_cons] at hnd
        simpa [entriesKeys] using hnd.2)
    rw [hstep]
    simp

theorem mem_of_get? (l : List (Nat × Nat × Nat)) (jr : Nat) (e : Nat × Nat × Nat)
    (h : l.get? jr = some e) : e ∈ l := by
  induction l generalizing jr with
  | nil => simp at h
  | cons f rest ih =>
    cases jr with
    | zero =>
      simp only [List.get?] at h
      cases h
      exact List.mem_cons_self _ _
    | succ jr1 =>
      simp only [List.get?] at h
      exact List.mem_cons_of_mem f (ih jr1 h)

theorem pageWf4_parts (p : Page) (h : pageWf4B p = true) :
    p.header.number_of_slots = p.header.entries.length ∧
    (entriesKeys p.header.entries).Nodup ∧
    (∀ e ∈ p.header.entries, e.2.1 + e.2.2 + (6 * p.header.entries.length + 8) ≤ PAGE_SIZE) ∧
    8 + 6 * p.header.entries.length ≤ PAGE_SIZE ∧
    (∀ e ∈ p.header.entries, e.1 < 65536) ∧
    p.header.page_id < 65536 := by
  unfold pageWf4B countOkB getHeaderSize at h
  simp only [Bool.and_eq_true, decide_eq_true_eq, List.all_eq_true] at h
  obtain ⟨⟨⟨⟨⟨⟨⟨h1, h2⟩, h3⟩, h4⟩, h5⟩, h6⟩, _⟩, _⟩ := h
  exact ⟨h1, h2, fun e he => h3 e he, h4, fun e he => h5 e he, h6⟩

theorem c4_main (p : Page) (fs : Nat)
    (hwf : pageWf4B p = true) (hfs : p.header.furthest_slot = some fs) :
    (fromBytes (getBytesD p)).header.page_id = p.header.page_id ∧
    (fromBytes (getBytesD p)).header.entries = p.header.entries ∧
    (∀ t, getValue (fromBytes (getBytesD p)) t = getValue p t) := by
  obtain ⟨hcnt, hnd, hbnd, hfit, hkeys, hpid⟩ := pageWf4_parts p hwf
  have hPval : PAGE_SIZE = 4096 := rfl
  have himg : getBytesD p = (List.range PAGE_SIZE).map (serializeImage p fs) := by
    unfold getBytesD getBytes
    rw [hfs]
    rfl
  have hser : serializeImage p fs = writeEntriesImg p.header.entries 0
      (writeU16 (writeU16 (writeU16 (writeU16 p.data (PAGE_SIZE - 2) p.header.page_id)
        (PAGE_SIZE - 4) p.header.number_of_slots) (PAGE_SIZE - 6) fs)
        (PAGE_SIZE - 8) p.header.max_slot_id) := rfl
  have hfit0 : 8 + 6 * (0 + p.header.entries.length) ≤ PAGE_SIZE := by
    simpa using hfit
  have hP2 : readU16 (getBytesD p) (PAGE_SIZE - 2) = p.header.page_id := by
    rw [himg, readU16_range_map _ _ (by omega), hser]
    rw [writeEntriesImg_high _ 0 _ _ hfit0 (by omega)]
    rw [writeEntriesImg_high _ 0 _ _ hfit0 (by omega)]
    rw [writeU16_ne _ _ _ _ (by omega) (by omega)]
    rw [writeU16_ne _ _ _ _ (by omega) (by omega)]
    rw [writeU16_ne _ _ _ _ (by omega) (by omega)]
    rw [writeU16_at_low]
    rw [writeU16_ne _ _ _ _ (by omega) (by omega)]
    rw [writeU16_ne _ _ _ _ (by omega) (by omega)]
    rw [writeU16_ne _ _ _ _ (by omega) (by omega)]
    have hx : PAGE_SIZE - 2 + 1 = (PAGE_SIZE - 2) + 1 := rfl
    rw [writeU16_at_high]
    exact u16_round _ hpid
  have hP4 : readU16 (getBytesD p) (PAGE_SIZE - 4) = p.header.entries.length := by
    rw [himg, readU16_range_map _ _ (by omega), hser]
    rw [writeEntriesImg_high _ 0 _ _ hfit0 (by omega)]
    rw [writeEntriesImg_high _ 0 _ _ hfit0 (by omega)]
    rw [writeU16_ne _ _ _ _ (by omega) (by omega)]
    rw [writeU16_ne _ _ _ _ (by omega) (by omega)]
    rw [writeU16_at_low]
    rw [writeU16_ne _ _ _ _ (by omega) (by omega)]
    rw [writeU16_ne _ _ _ _ (by omega) (by omega)]
    rw [writeU16_at_high]
    rw [hcnt]
    exact u16_round _ (by omega)
  have hentries : readTriples (getBytesD p) p.header.entries.length 0 [] = p.header.entries := by
    have hb := readTriples_build (getBytesD p) p.header.entries 0 []
      (by
        intro jr e hjr
        have hmem : e ∈ p.header.entries := mem_of_get? _ jr e hjr
        have hjrlt : jr < p.header.entries.length := by
          by_contra hc
          rw [List.get?_eq_none.mpr (by omega)] at hjr
          cases hjr
        have hent := writeEntriesImg_entry p.header.entries 0
          (writeU16 (writeU16 (writeU16 (writeU16 p.data (PAGE_SIZE - 2) p.header.page_id)
            (PAGE_SIZE - 4) p.header.number_of_slots) (PAGE_SIZE - 6) fs)
            (PAGE_SIZE - 8) p.header.max_slot_id) jr e hfit0 hjr
        have hoffb := hbnd e hmem
        have hkb := hkeys e hmem
        simp only [Nat.zero_add] at hent ⊢
        refine ⟨?_, ?_, ?_⟩
        · rw [himg, readU16_range_map _ _ (by omega), hser]
          rw [hent.1, hent.2.1]
          exact u16_round _ hkb
        · rw [himg, readU16_range_map _ _ (by omega), hser]
          rw [hent.2.2.1, hent.2.2.2.1]
          exact u16_round _ (by omega)
        · rw [himg, readU16_range_map _ _ (by omega), hser]
          rw [hent.2.2.2.2.1, hent.2.2.2.2.2]
          exact u16_round _ (by omega))
      (by
        intro e _
        rfl)
      hnd
    simpa using hb
  have hdata : ∀ i, i < PAGE_SIZE - 8 - 6 * p.header.entries.length →
      (getBytesD p).getD i 0 = p.data i := by
    intro i hi
    rw [himg, getD_range_map _ _ _ (by omega), hser]
    rw [writeEntriesImg_low _ 0 _ _ hfit0 (by simpa using hi)]
    rw [writeU16_ne _ _ _ _ (by omega) (by omega)]
    rw [writeU16_ne _ _ _ _ (by omega) (by omega)]
    rw [writeU16_ne _ _ _ _ (by omega) (by omega)]
    rw [writeU16_ne _ _ _ _ (by omega) (by omega)]
  have hfb_entries : (fromBytes (getBytesD p)).header.entries = p.header.entries := by
    show readTriples (getBytesD p) (readU16 (getBytesD p) (PAGE_SIZE - 4)) 0 [] =
      p.header.entries
    rw [hP4, hentries]
  refine ⟨hP2, hfb_entries, ?_⟩
  intro t
  unfold getValue
  rw [hfb_entries]
  cases hgt : entriesGet p.header.entries t with
  | none => rfl
  | some v =>
    have hmem : (t, v) ∈ p.header.entries := entriesGet_mem _ t v hgt
    have hvb := hbnd (t, v) hmem
    show some (readRange (fromBytes (getBytesD p)).data v.1 v.2) =
      some (readRange p.data v.1 v.2)
    congr 1
    apply readRange_congr
    intro i hi
    show (getBytesD p).getD (v.1 + i) 0 = p.data (v.1 + i)
    apply hdata
    simp only at hvb
    omega

/-- C4 (amended): for every serialization-well-formed page whose
`furthest_slot` field is present (every page except a freshly created empty
one, on which `get_bytes` panics), `from_bytes(get_bytes(p))` yields a page
observably equal to `p`: the same `page_id`, the same entries map (hence the
same set of live slot identifiers), and `get_value` returns the same bytes
for every slot. -/
theorem c4_amended_theorem (p : Page) (fs : Nat)
    (hwf : pageWf4B p = true) (hfs : p.header.furthest_slot = some fs) :
    (fromBytes (getBytesD p)).header.page_id = p.header.page_id ∧
    (fromBytes (getBytesD p)).header.entries = p.header.entries ∧
    (∀ t, getValue (fromBytes (getBytesD p)) t = getValue p t) :=
  c4_main p fs hwf hfs

/-- C4 witness: the scenario-S1 page (id 2, two records) round-trips. -/
theorem c4_witness :
    pageWf4B c4page = true ∧ c4page.header.furthest_slot = some 1 ∧
    ((fromBytes (getBytesD c4page)).header.page_id = c4page.header.page_id ∧
      (fromBytes (getBytesD c4page)).header.entries = c4page.header.entries ∧
      (∀ t, getValue (fromBytes (getBytesD c4page)) t = getValue c4page t)) :=
  ⟨by decide, by decide, c4_amended_theorem c4page 1 (by decide) (by decide)⟩

/-- C4 counterexample: the claim quantifies over every page, but on a freshly
created page `get_bytes` panics (`furthest_slot.unwrap()` of an absent
field), so the round trip is not even defined there. -/
theorem c4_counterexample :
    ¬ ∃ img, getBytes (pageNew 2) = some img ∧
      (fromBytes img).header.page_id = (pageNew 2).header.page_id ∧
      (∀ t, getValue (fromBytes img) t = getValue (pageNew 2) t) := by
  intro h
  obtain ⟨img, himg, _⟩ := h
  rw [show getBytes (pageNew 2) = none from rfl] at himg
  cases himg

/-! # Claim C6 lemmas (storage-manager first fit and iteration order) -/

theorem recsSize_append (a b : List (List Nat)) :
    recsSize (a ++ b) = recsSize a + recsSize b := by
  unfold recsSize
  rw [List.map_append, List.sum_append]

theorem recsSize_take_succ (recs : List (List Nat)) :
    ∀ (jr : Nat) (r : List Nat), recs.get? jr = some r →
    recsSize (recs.take (jr + 1)) = recsSize (recs.take jr) + r.length := by
  induction recs with
  | nil =>
    intro jr r h
    simp at h
  | cons a t ih =>
    intro jr r h
    cases jr with
    | zero =>
      simp only [List.get?] at h
      cases h
      simp [recsSize]
    | succ jr1 =>
      simp only [List.get?] at h
      have := ih jr1 r h
      simp only [List.take_succ_cons, recsSize, List.map_cons, List.sum_cons] at this ⊢
      omega

theorem recsSize_take_le (recs : List (List Nat)) (m : Nat) :
    recsSize (recs.take m) ≤ recsSize recs := by
  conv_rhs => rw [← List.take_append_drop m recs]
  rw [recsSize_append]
  omega

theorem recsSize_last (recs : List (List Nat)) (r : List Nat)
    (h : recs.get? (recs.length - 1) = some r) :
    recsSize (recs.take (recs.length - 1)) + r.length = recsSize recs := by
  have hne : recs ≠ [] := by
    intro h0
    rw [h0] at h
    simp at h
  have hlen : recs.length - 1 + 1 = recs.length := by
    cases recs with
    | nil => exact absurd rfl hne
    | cons a t => simp
  have := recsSize_take_succ recs (recs.length - 1) r h
  rw [hlen] at this
  rw [List.take_length] at this
  omega

theorem chainEntriesAux_length (recs : List (List Nat)) :
    ∀ j off, (chainEntriesAux recs j off).length = recs.length := by
  induction recs with
  | nil => intro j off; rfl
  | cons r t ih =>
    intro j off
    simp only [chainEntriesAux, List.length_cons, ih]

theorem chainEntriesAux_get (recs : List (List Nat)) :
    ∀ (j off jr : Nat) (r : List Nat), recs.get? jr = some r →
    entriesGet (chainEntriesAux recs j off) (j + jr) =
      some (off + recsSize (recs.take jr), r.length) := by
  induction recs with
  | nil =>
    intro j off jr r h
    simp at h
  | cons a t ih =>
    intro j off jr r h
    cases jr with
    | zero =>
      simp only [List.get?] at h
      cases h
      simp [chainEntriesAux, entriesGet, recsSize]
    | succ jr1 =>
      simp only [List.get?] at h
      have hne : ¬ j = j + (jr1 + 1) := by omega
      simp only [chainEntriesAux, entriesGet, hne, if_false]
      have := ih (j + 1) (off + a.length) jr1 r h
      have harith : j + 1 + jr1 = j + (jr1 + 1) := by omega
      rw [harith] at this
      rw [this]
      simp only [List.take_succ_cons, recsSize, List.map_cons, List.sum_cons]
      rw [Nat.add_assoc]

theorem chainEntriesAux_keys_ge (recs : List (List Nat)) :
    ∀ j off k, k ∈ entriesKeys (chainEntriesAux recs j off) → j ≤ k := by
  induction recs with
  | nil =>
    intro j off k h
    simp [chainEntriesAux, entriesKeys] at h
  | cons r t ih =>
    intro j off k h
    simp only [chainEntriesAux, entriesKeys, List.map_cons, List.mem_cons] at h
    rcases h with h | h
    · omega
    · have := ih (j + 1) (off + r.length) k (by simpa [entriesKeys] using h)
      omega

theorem chainEntriesAux_keys_lt (recs : List (List Nat)) :
    ∀ j off k, k ∈ entriesKeys (chainEntriesAux recs j off) → k < j + recs.length := by
  induction recs with
  | nil =>
    intro j off k h
    simp [chainEntriesAux, entriesKeys] at h
  | cons r t ih =>
    intro j off k h
    simp only [chainEntriesAux, entriesKeys, List.map_cons, List.mem_cons] at h
    rcases h with h | h
    · simp only [List.length_cons]
      omega
    · have := ih (j + 1) (off + r.length) k (by simpa [entriesKeys] using h)
      simp only [List.length_cons]
      omega

theorem chainEntriesAux_nodup (recs : List (List Nat)) :
    ∀ j off, (entriesKeys (chainEntriesAux recs j off)).Nodup := by
  induction recs with
  | nil => intro j off; simp [chainEntriesAux, entriesKeys]
  | cons r t ih =>
    intro j off
    simp only [chainEntriesAux, entriesKeys, List.map_cons, List.nodup_cons]
    refine ⟨?_, by simpa [entriesKeys] using ih (j + 1) (off + r.length)⟩
    intro hmem
    have := chainEntriesAux_keys_ge t (j + 1) (off + r.length) j (by simpa [entriesKeys] using hmem)
    omega

theorem chainEntriesAux_contains (recs : List (List Nat)) :
    ∀ j off k, j ≤ k → k < j + recs.length →
    entriesContains (chainEntriesAux recs j off) k = true := by
  induction recs with
  | nil =>
    intro j off k h1 h2
    simp at h2
    omega
  | cons r t ih =>
    intro j off k h1 h2
    by_cases hk : j = k
    · simp [chainEntriesAux, entriesContains, hk]
    · simp only [chainEntriesAux, entriesContains, Bool.or_eq_true, decide_eq_true_eq]
      right
      apply ih (j + 1) (off + r.length) k (by omega)
      simp only [List.length_cons] at h2
      omega

theorem chainEntriesAux_not_contains (recs : List (List Nat)) :
    ∀ j off k, j + recs.length ≤ k →
    entriesContains (chainEntriesAux recs j off) k = false := by
  intro j off k h
  cases hx : entriesContains (chainEntriesAux recs j off) k
  · rfl
  · exfalso
    obtain ⟨v, hv⟩ := entriesGet_of_contains _ k hx
    have hmem := entriesGet_mem _ k v hv
    have : k ∈ entriesKeys (chainEntriesAux recs j off) :=
      List.mem_map.mpr ⟨(k, v), hmem, rfl⟩
    have := chainEntriesAux_keys_lt recs j off k this
    omega

theorem chainEntriesAux_append (recs : List (List Nat)) (v : List Nat) :
    ∀ j off, chainEntriesAux (recs ++ [v]) j off =
      chainEntriesAux recs j off ++ [(j + recs.length, off + recsSize recs, v.length)] := by
  induction recs with
  | nil =>
    intro j off
    simp [chainEntriesAux, recsSize]
  | cons r t ih =>
    intro j off
    have h1 : j + 1 + t.length = j + (t.length + 1) := by omega
    have h2 : off + r.length + recsSize t = off + recsSize (r :: t) := by
      simp only [recsSize, List.map_cons, List.sum_cons]
      omega
    have hstep : chainEntriesAux ((r :: t) ++ [v]) j off =
        (j, off, r.length) :: chainEntriesAux (t ++ [v]) (j + 1) (off + r.length) := rfl
    rw [hstep, ih (j + 1) (off + r.length)]
    show (j, off, r.length) :: (chainEntriesAux t (j + 1) (off + r.length) ++
        [(j + 1 + t.length, off + r.length + recsSize t, v.length)]) =
      (j, off, r.length) :: (chainEntriesAux t (j + 1) (off + r.length) ++
        [(j + (t.length + 1), off + recsSize (r :: t), v.length)])
    rw [h1, h2]

theorem insSorted_of_le (x : Nat) (l : List Nat) (h : ∀ y ∈ l, x ≤ y) :
    insSorted x l = x :: l := by
  cases l with
  | nil => rfl
  | cons y t =>
    unfold insSorted
    rw [if_pos (h y (List.mem_cons_self y t))]

theorem insSort_of_sorted (l : List Nat) (h : l.Pairwise (· ≤ ·)) : insSort l = l := by
  induction l with
  | nil => rfl
  | cons x t ih =>
    have hp := List.pairwise_cons.mp h
    unfold insSort
    rw [ih hp.2]
    exact insSorted_of_le x t hp.1

theorem chainEntriesAux_keys_sorted (recs : List (List Nat)) :
    ∀ j off, (entriesKeys (chainEntriesAux recs j off)).Pairwise (· ≤ ·) := by
  induction recs with
  | nil => intro j off; simp [chainEntriesAux, entriesKeys]
  | cons r t ih =>
    intro j off
    simp only [chainEntriesAux, entriesKeys, List.map_cons, List.pairwise_cons]
    refine ⟨?_, by simpa [entriesKeys] using ih (j + 1) (off + r.length)⟩
    intro k hk
    have := chainEntriesAux_keys_ge t (j + 1) (off + r.length) k (by simpa [entriesKeys] using hk)
    omega

theorem chainEntriesAux_keys_get (recs : List (List Nat)) :
    ∀ j off jr, jr < recs.length →
    (entriesKeys (chainEntriesAux recs j off)).get? jr = some (j + jr) := by
  induction recs with
  | nil =>
    intro j off jr h
    simp at h
  | cons r t ih =>
    intro j off jr h
    cases jr with
    | zero => rfl
    | succ jr1 =>
      simp only [chainEntriesAux, entriesKeys, List.map_cons, List.get?]
      have := ih (j + 1) (off + r.length) jr1 (by simpa using h)
      simp only [entriesKeys] at this
      rw [this]
      have : j + 1 + jr1 = j + (jr1 + 1) := by omega
      rw [this]

theorem foldl_max_le (l : List Nat) :
    ∀ acc K, acc ≤ K → (∀ x ∈ l, x ≤ K) → l.foldl Nat.max acc ≤ K := by
  induction l with
  | nil =>
    intro acc K h _
    simpa using h
  | cons x t ih =>
    intro acc K h hall
    simp only [List.foldl_cons]
    exact ih _ K (Nat.max_le.mpr ⟨h, hall x (List.mem_cons_self x t)⟩)
      (fun y hy => hall y (List.mem_cons_of_mem _ hy))

theorem chainEntries_maxKey_le (recs : List (List Nat)) :
    entriesMaxKey (chainEntries recs) ≤ recs.length - 1 := by
  unfold entriesMaxKey chainEntries
  apply foldl_max_le
  · omega
  · intro k hk
    have := chainEntriesAux_keys_lt recs 0 0 k hk
    omega

theorem insOnly_entries (pid : Nat) (recs : List (List Nat)) (p : Page)
    (h : InsOnly pid recs p) : p.header.entries = chainEntries recs :=
  h.2.2.2.1

theorem insOnly_entries_length (pid : Nat) (recs : List (List Nat)) (p : Page)
    (h : InsOnly pid recs p) : p.header.entries.length = recs.length := by
  rw [insOnly_entries pid recs p h]
  unfold chainEntries
  exact chainEntriesAux_length recs 0 0

theorem insOnly_firstFree (pid : Nat) (recs : List (List Nat)) (p : Page)
    (h : InsOnly pid recs p) : getFirstFreeSpace p = none := by
  have hent := insOnly_entries pid recs p h
  have hlen := insOnly_entries_length pid recs p h
  unfold getFirstFreeSpace
  by_cases h0 : p.header.entries.length = 0
  · rw [if_pos h0]
  · rw [if_neg h0]
    apply List.find?_eq_none.mpr
    intro i hi
    rw [List.mem_range] at hi
    have hmax : entriesMaxKey p.header.entries ≤ recs.length - 1 := by
      rw [hent]
      exact chainEntries_maxKey_le recs
    have hcont : entriesContains p.header.entries i = true := by
      rw [hent]
      apply chainEntriesAux_contains recs 0 0 i (Nat.zero_le i)
      omega
    simp [hcont]

theorem insOnly_furthestOk (pid : Nat) (recs : List (List Nat)) (p : Page)
    (h : InsOnly pid recs p) : furthestOkB p = true := by
  have hent := insOnly_entries pid recs p h
  have hlen := insOnly_entries_length pid recs p h
  have hfs := h.2.2.1
  unfold furthestOkB
  cases hr : recs.length with
  | zero =>
    rw [hr] at hfs
    rw [hfs]
    rw [List.isEmpty_iff_length_eq_zero]
    omega
  | succ n =>
    rw [hr] at hfs
    rw [hfs]
    have hne : ¬ p.header.entries.isEmpty = true := by
      rw [List.isEmpty_iff_length_eq_zero]
      omega
    have hcont : entriesContains p.header.entries n = true := by
      rw [hent]
      apply chainEntriesAux_contains recs 0 0 n (Nat.zero_le n)
      omega
    simp [hne, hcont]

theorem insOnly_free (pid : Nat) (recs : List (List Nat)) (p : Page)
    (h : InsOnly pid recs p) :
    getLargestFreeContiguousSpace p =
      some (PAGE_SIZE - (6 * recs.length + 8 + recsSize recs)) := by
  have hent := insOnly_entries pid recs p h
  have hlen := insOnly_entries_length pid recs p h
  have hfs := h.2.2.1
  unfold getLargestFreeContiguousSpace getHeaderSize
  cases hr : recs.length with
  | zero =>
    rw [if_pos (by omega)]
    have hrecs : recs = [] := List.length_eq_zero.mp hr
    rw [hrecs]
    simp only [recsSize, List.map_nil, List.sum_nil, List.length_nil]
    rw [hlen, hr]
    norm_num
  | succ n =>
    rw [if_neg (by omega)]
    rw [hr] at hfs
    have hfs2 : p.header.furthest_slot = some n := hfs
    rw [hfs2]
    obtain ⟨r, hrg⟩ : ∃ r, recs.get? n = some r := by
      cases hg : recs.get? n with
      | none =>
        exfalso
        have := List.get?_eq_none.mp hg
        omega
      | some r => exact ⟨r, rfl⟩
    have hget : entriesGet p.header.entries n = some (recsSize (recs.take n), r.length) := by
      rw [hent]
      have := chainEntriesAux_get recs 0 0 n r hrg
      simpa using this
    simp only [hget]
    have hsum : recsSize (recs.take n) + r.length = recsSize recs := by
      have := recsSize_last recs r (by rw [hr]; simpa using hrg)
      rw [hr] at this
      simpa using this
    rw [hlen, hr]
    congr 1
    omega

theorem insOnly_nil (pid : Nat) : InsOnly pid [] (pageNew pid) := by
  refine ⟨rfl, rfl, rfl, rfl, ?_, ?_⟩
  · intro j r hjr
    simp at hjr
  · simp only [recsSize, List.map_nil, List.sum_nil, List.length_nil]
    unfold PAGE_SIZE
    omega

theorem map_getD_range (l : List Nat) :
    (List.range l.length).map (fun i => l.getD i 0) = l := by
  apply List.ext_get
  · simp
  · intro i h1 h2
    simp [List.getD_eq_getElem?_getD, List.getElem?_eq_getElem h2]

theorem readRange_writeRange (f : Nat → Nat) (start : Nat) (bytes : List Nat) :
    readRange (writeRange f start bytes) start bytes.length = bytes := by
  unfold readRange
  have hcong : ∀ i ∈ List.range bytes.length,
      writeRange f start bytes (start + i) = bytes.getD i 0 := by
    intro i hi
    rw [List.mem_range] at hi
    unfold writeRange
    rw [if_pos (by omega)]
    congr 1
    omega
  rw [List.map_congr_left hcong]
  exact map_getD_range bytes

theorem readRange_writeRange_before (f : Nat → Nat) (wstart : Nat) (bytes : List Nat)
    (rstart rlen : Nat) (h : rstart + rlen ≤ wstart) :
    readRange (writeRange f wstart bytes) rstart rlen = readRange f rstart rlen := by
  apply readRange_congr
  intro i hi
  exact writeRange_eq_of_outside f wstart bytes (rstart + i) (Or.inl (by omega))

theorem pageRecords_insOnly (pid : Nat) (recs : List (List Nat)) (p : Page)
    (h : InsOnly pid recs p) : pageRecords p = recs := by
  have hent := insOnly_entries pid recs p h
  have hread := h.2.2.2.2.1
  unfold pageRecords
  rw [hent]
  have hsorted : insSort (entriesKeys (chainEntries recs)) = entriesKeys (chainEntries recs) := by
    apply insSort_of_sorted
    exact chainEntriesAux_keys_sorted recs 0 0
  rw [hsorted]
  apply List.ext
  intro jr
  rw [List.get?_map]
  by_cases hjr : jr < recs.length
  · obtain ⟨r, hrg⟩ : ∃ r, recs.get? jr = some r := by
      cases hg : recs.get? jr with
      | none =>
        exfalso
        have := List.get?_eq_none.mp hg
        omega
      | some r => exact ⟨r, rfl⟩
    have hkey : (entriesKeys (chainEntries recs)).get? jr = some jr := by
      have := chainEntriesAux_keys_get recs 0 0 jr hjr
      simpa using this
    rw [hkey, hrg]
    simp only [Option.map_some']
    have hget : entriesGet (chainEntries recs) jr =
        some (recsSize (recs.take jr), r.length) := by
      have := chainEntriesAux_get recs 0 0 jr r hrg
      simpa using this
    simp only [hget]
    rw [hread jr r hrg]
  · have hk : (entriesKeys (chainEntries recs)).get? jr = none := by
      apply List.get?_eq_none.mpr
      unfold entriesKeys chainEntries
      rw [List.length_map, chainEntriesAux_length]
      omega
    have hr : recs.get? jr = none := List.get?_eq_none.mpr (by omega)
    rw [hk, hr]
    rfl

theorem insOnly_freeD_eq (pid : Nat) (recs : List (List Nat)) (p : Page)
    (h : InsOnly pid recs p) :
    freeD p = PAGE_SIZE - (6 * recs.length + 8 + recsSize recs) := by
  unfold freeD
  rw [insOnly_free pid recs p h]
  rfl

theorem insOnly_addValue_cases (pid : Nat) (recs : List (List Nat)) (p : Page) (v : List Nat)
    (h : InsOnly pid recs p) :
    (v.length + 14 + 6 * recs.length + recsSize recs < PAGE_SIZE ∧
       (addValueFull p v).1 = AddOutcome.ok recs.length ∧
       InsOnly pid (recs ++ [v]) (addValueFull p v).2) ∨
    (PAGE_SIZE ≤ v.length + 14 + 6 * recs.length + recsSize recs ∧
       addValueFull p v = (AddOutcome.full, p)) := by
  have hent := insOnly_entries pid recs p h
  have hlen := insOnly_entries_length pid recs p h
  have hpid : p.header.page_id = pid := h.1
  have hslots : p.header.number_of_slots = recs.length := h.2.1
  have hread := h.2.2.2.2.1
  have hbound : recsSize recs + 8 + 6 * recs.length ≤ PAGE_SIZE := h.2.2.2.2.2
  have hfree := insOnly_free pid recs p h
  have hff := insOnly_firstFree pid recs p h
  have hfok := insOnly_furthestOk pid recs p h
  by_cases hc : PAGE_SIZE ≤ v.length + 14 + 6 * recs.length + recsSize recs
  · right
    refine ⟨hc, ?_⟩
    apply addValueFull_eq_full p v hfok
    rw [insOnly_freeD_eq pid recs p h]
    omega
  · left
    refine ⟨by omega, ?_⟩
    cases hr : recs.length with
    | zero =>
      have hrecs : recs = [] := List.length_eq_zero.mp hr
      subst hrecs
      have hfs2 : p.header.furthest_slot = none := h.2.2.1
      have hent2 : p.header.entries = [] := hent
      have heq : addValueFull p v =
          (AddOutcome.ok 0,
           { header :=
               { page_id := p.header.page_id
                 number_of_slots := p.header.number_of_slots + 1
                 furthest_slot := some 0
                 max_slot_id := p.header.max_slot_id
                 entries := entriesInsert p.header.entries 0 0 v.length }
             data := writeRange p.data 0 v }) := by
        unfold addValueFull
        rw [hfree, hff]
        simp only []
        have hlt : v.length + 6 <
            PAGE_SIZE - (6 * List.length ([] : List (List Nat)) + 8 + recsSize []) := by
          simp only [recsSize, List.map_nil, List.sum_nil, List.length_nil] at hc ⊢
          unfold PAGE_SIZE at hc ⊢
          omega
        rw [if_neg (Nat.not_le.mpr hlt)]
        rw [hfs2]
      rw [heq]
      refine ⟨rfl, hpid, ?_, rfl, ?_, ?_, ?_⟩
      · simp [hslots]
      · rw [hent2]
        rfl
      · intro j r0 hjr
        cases j with
        | zero =>
          simp only [List.nil_append, List.get?] at hjr
          cases hjr
          show readRange (writeRange p.data 0 v) (recsSize ([v].take 0)) v.length = v
          simp only [List.take_zero, recsSize, List.map_nil, List.sum_nil]
          exact readRange_writeRange p.data 0 v
        | succ j1 =>
          simp only [List.nil_append, List.get?] at hjr
          cases j1 with
          | zero => cases hjr
          | succ j2 => cases hjr
      · show recsSize [v] + 8 + 6 * [v].length ≤ PAGE_SIZE
        simp only [recsSize, List.map_cons, List.map_nil, List.sum_cons, List.sum_nil,
          List.length_cons, List.length_nil]
        simp only [recsSize, List.map_nil, List.sum_nil, List.length_nil] at hc
        omega
    | succ n =>
      have hfs0 := h.2.2.1
      rw [hr] at hfs0
      have hfs2 : p.header.furthest_slot = some n := hfs0
      obtain ⟨r, hrg⟩ : ∃ r0, recs.get? n = some r0 := by
        cases hg : recs.get? n with
        | none =>
          exfalso
          have := List.get?_eq_none.mp hg
          omega
        | some r0 => exact ⟨r0, rfl⟩
      have hget2 : entriesGet p.header.entries n = some (recsSize (recs.take n), r.length) := by
        rw [hent]
        have := chainEntriesAux_get recs 0 0 n r hrg
        simpa using this
      have hsum : recsSize (recs.take n) + r.length = recsSize recs := by
        have := recsSize_last recs r (by rw [hr]; simpa using hrg)
        rw [hr] at this
        simpa using this
      have heq : addValueFull p v =
          (AddOutcome.ok p.header.number_of_slots,
           { header :=
               { page_id := p.header.page_id
                 number_of_slots := p.header.number_of_slots + 1
                 furthest_slot := some p.header.number_of_slots
                 max_slot_id := Nat.max p.header.max_slot_id p.header.number_of_slots
                 entries := entriesInsert p.header.entries p.header.number_of_slots
                   (recsSize recs) v.length }
             data := writeRange p.data (recsSize recs) v }) := by
        have hlt : v.length + 6 <
            PAGE_SIZE - (6 * recs.length + 8 + recsSize recs) := by
          omega
        unfold addValueFull
        rw [hfree, hff]
        simp only []
        rw [if_neg (Nat.not_le.mpr hlt)]
        rw [hfs2]
        simp only [hget2]
        rw [hsum]
      rw [heq]
      have hnotc : entriesContains p.header.entries p.header.number_of_slots = false := by
        rw [hent, hslots]
        exact chainEntriesAux_not_contains recs 0 0 recs.length (by omega)
      have hins : entriesInsert p.header.entries p.header.number_of_slots
          (recsSize recs) v.length = chainEntries (recs ++ [v]) := by
        rw [entriesInsert_fresh _ _ _ _ hnotc, hent, hslots]
        unfold chainEntries
        rw [chainEntriesAux_append recs v]
        simp
      refine ⟨by rw [hslots, hr], hpid, ?_, ?_, hins, ?_, ?_⟩
      · show p.header.number_of_slots + 1 = (recs ++ [v]).length
        rw [List.length_append, hslots]
        rfl
      · show some p.header.number_of_slots =
          (match (recs ++ [v]).length with | 0 => none | m + 1 => some m)
        rw [List.length_append]
        show some p.header.number_of_slots = some recs.length
        rw [hslots]
      · intro j r0 hjr
        show readRange (writeRange p.data (recsSize recs) v)
          (recsSize ((recs ++ [v]).take j)) r0.length = r0
        rcases Nat.lt_trichotomy j recs.length with hlt | heqj | hgt
        · have hjr' : recs.get? j = some r0 := by
            rwa [List.get?_append hlt] at hjr
          have htake : (recs ++ [v]).take j = recs.take j :=
            List.take_append_of_le_length (by omega)
          rw [htake]
          have hend : recsSize (recs.take j) + r0.length ≤ recsSize recs := by
            have h1 := recsSize_take_succ recs j r0 hjr'
            have h2 := recsSize_take_le recs (j + 1)
            omega
          rw [readRange_writeRange_before p.data (recsSize recs) v _ _ hend]
          exact hread j r0 hjr'
        · rw [heqj] at hjr ⊢
          have hv0 : r0 = v := by
            rw [List.get?_concat_length] at hjr
            exact (Option.some.inj hjr).symm
          rw [hv0, List.take_left]
          exact readRange_writeRange p.data (recsSize recs) v
        · exfalso
          have hnone : (recs ++ [v]).get? j = none := by
            apply List.get?_eq_none.mpr
            rw [List.length_append]
            simp only [List.length_cons, List.length_nil]
            omega
          rw [hnone] at hjr
          cases hjr
      · show recsSize (recs ++ [v]) + 8 + 6 * (recs ++ [v]).length ≤ PAGE_SIZE
        rw [recsSize_append, List.length_append]
        have hone : recsSize [v] = v.length := by
          simp [recsSize]
        rw [hone]
        simp only [List.length_cons, List.length_nil]
        omega

theorem ffScan_cases (v : List Nat) :
    ∀ (pages : List Page) (i0 : Nat), (∀ p ∈ pages, furthestOkB p = true) →
    (match pages.findIdx? (fun p =>
        match (addValueFull p v).1 with
        | AddOutcome.ok _ => true
        | _ => false) i0 with
     | some k => i0 ≤ k ∧ ∃ s p1, ffScan v pages i0 = some (some (k, s, p1)) ∧
         addValueFull (pages.getD (k - i0) (pageNew 0)) v = (AddOutcome.ok s, p1)
     | none => ffScan v pages i0 = some none) := by
  intro pages
  induction pages with
  | nil =>
    intro i0 _
    rw [List.findIdx?_nil]
    rfl
  | cons p rest ih =>
    intro i0 hwf
    rw [List.findIdx?_cons]
    cases hav : addValueFull p v with
    | mk o q =>
      cases o with
      | ok s0 =>
        rw [if_pos (by rfl)]
        refine ⟨Nat.le_refl i0, s0, q, ?_, ?_⟩
        · have hu : ffScan v (p :: rest) i0 =
              match addValueFull p v with
              | (AddOutcome.ok s, p1) => some (some (i0, s, p1))
              | (AddOutcome.full, _) => ffScan v rest (i0 + 1)
              | (AddOutcome.panic, _) => none := rfl
          rw [hu, hav]
        · rw [Nat.sub_self]
          exact hav
      | full =>
        rw [if_neg (by simp)]
        have hstep : ffScan v (p :: rest) i0 = ffScan v rest (i0 + 1) := by
          have hu : ffScan v (p :: rest) i0 =
              match addValueFull p v with
              | (AddOutcome.ok s, p1) => some (some (i0, s, p1))
              | (AddOutcome.full, _) => ffScan v rest (i0 + 1)
              | (AddOutcome.panic, _) => none := rfl
          rw [hu, hav]
        have ihr := ih (i0 + 1) (fun q0 hq => hwf q0 (List.mem_cons_of_mem p hq))
        cases hf : rest.findIdx? (fun p0 =>
            match (addValueFull p0 v).1 with
            | AddOutcome.ok _ => true
            | _ => false) (i0 + 1) with
        | some k =>
          rw [hf] at ihr
          obtain ⟨hk, s, p1, hscan, hadd⟩ := ihr
          refine ⟨by omega, s, p1, ?_, ?_⟩
          · rw [hstep, hscan]
          · have hidx : k - i0 = (k - (i0 + 1)) + 1 := by omega
            rw [hidx, List.getD_cons_succ]
            exact hadd
        | none =>
          rw [hf] at ihr
          rw [hstep, ihr]
      | panic =>
        exfalso
        have hnp := addValueFull_not_panic p v (hwf p (List.mem_cons_self p rest))
        rw [hav] at hnp
        exact hnp rfl

theorem furthestOk_pageNew (pid : Nat) : furthestOkB (pageNew pid) = true := rfl

theorem insertValue_firstFit (pages : List Page) (v : List Nat)
    (hwf : ∀ p ∈ pages, furthestOkB p = true) (hlen : v.length ≤ PAGE_SIZE) :
    insResPageId (insertValueSM pages v).1 = some (specFirstFitIdx pages v) := by
  unfold insertValueSM
  rw [if_neg (by omega)]
  have hs := ffScan_cases v pages 0 hwf
  unfold specFirstFitIdx
  cases hf : pages.findIdx? (fun p =>
      match (addValueFull p v).1 with
      | AddOutcome.ok _ => true
      | _ => false) with
  | some k =>
    rw [hf] at hs
    obtain ⟨hk, s, p1, hscan, _⟩ := hs
    rw [hscan]
    simp [insResPageId]
  | none =>
    rw [hf] at hs
    rw [hs]
    cases hav : addValueFull (pageNew pages.length) v with
    | mk o q =>
      cases o with
      | ok s => simp [insResPageId]
      | full => simp [insResPageId]
      | panic =>
        exfalso
        have hnp := addValueFull_not_panic (pageNew pages.length) v (furthestOk_pageNew _)
        rw [hav] at hnp
        exact hnp rfl

theorem ffScan_some_spec (v : List Nat) :
    ∀ (pages : List Page) (i0 i s : Nat) (p1 : Page),
    ffScan v pages i0 = some (some (i, s, p1)) →
    i0 ≤ i ∧ i - i0 < pages.length ∧
      addValueFull (pages.getD (i - i0) (pageNew 0)) v = (AddOutcome.ok s, p1) := by
  intro pages
  induction pages with
  | nil =>
    intro i0 i s p1 h
    exact absurd h (by intro hc; cases hc)
  | cons p rest ih =>
    intro i0 i s p1 h
    have hu : ffScan v (p :: rest) i0 =
        match addValueFull p v with
        | (AddOutcome.ok s, p1) => some (some (i0, s, p1))
        | (AddOutcome.full, _) => ffScan v rest (i0 + 1)
        | (AddOutcome.panic, _) => none := rfl
    rw [hu] at h
    cases hav : addValueFull p v with
    | mk o q =>
      rw [hav] at h
      cases o with
      | ok s0 =>
        simp only [Option.some.injEq, Prod.mk.injEq] at h
        obtain ⟨h1, h2, h3⟩ := h
        refine ⟨by omega, by simp only [List.length_cons]; omega, ?_⟩
        have hidx : i - i0 = 0 := by omega
        rw [hidx, List.getD_cons_zero, hav, h2, h3]
      | full =>
        obtain ⟨h1, h2, h3⟩ := ih (i0 + 1) i s p1 h
        refine ⟨by omega, by simp only [List.length_cons]; omega, ?_⟩
        have hidx : i - i0 = (i - (i0 + 1)) + 1 := by omega
        rw [hidx, List.getD_cons_succ]
        exact h3
      | panic => cases h

theorem iterAll_append (pages : List Page) (np : Page) :
    iterAllSM (pages ++ [np]) = iterAllSM pages ++ pageRecords np := by
  unfold iterAllSM
  rw [List.flatMap_append]
  simp [List.flatMap]

theorem iterAll_set_last (pages : List Page) (p1 : Page) (n : Nat)
    (hn : n + 1 = pages.length) :
    iterAllSM (pages.set n p1) = iterAllSM (pages.take n) ++ pageRecords p1 := by
  unfold iterAllSM
  rw [List.set_eq_take_cons_drop p1 (by omega)]
  have hdrop : pages.drop (n + 1) = [] := by
    rw [hn]
    exact List.drop_length pages
  rw [hdrop, List.flatMap_append]
  simp [List.flatMap]

theorem iterAll_take_last (pages : List Page) (n : Nat) (pl : Page)
    (hn : n + 1 = pages.length) (hl : pages.get? n = some pl) :
    iterAllSM pages = iterAllSM (pages.take n) ++ pageRecords pl := by
  conv_lhs => rw [← List.take_append_drop n pages]
  have hdrop : pages.drop n = [pl] := by
    rw [List.drop_eq_get_cons (show n < pages.length by omega)]
    have hdrop2 : pages.drop (n + 1) = [] := by
      rw [hn]
      exact List.drop_length pages
    rw [hdrop2]
    have : pages.get ⟨n, by omega⟩ = pl := by
      have := List.get?_eq_get (show n < pages.length by omega)
      rw [this] at hl
      exact Option.some.inj hl
    rw [this]
  rw [hdrop]
  unfold iterAllSM
  rw [List.flatMap_append]
  simp [List.flatMap]

theorem smInv_append (pages : List Page) (recss : List (List (List Nat))) (np : Page)
    (v : List Nat) (hinv : SMInv pages recss) (hnp : InsOnly pages.length [v] np) :
    SMInv (pages ++ [np]) (recss ++ [[v]]) := by
  obtain ⟨hlen, hall⟩ := hinv
  refine ⟨by simp [hlen], ?_⟩
  intro i hi
  rw [List.length_append, List.length_cons, List.length_nil] at hi
  by_cases hlt : i < pages.length
  · rw [List.getD_append _ _ _ _ hlt, List.getD_append _ _ _ _ (by omega)]
    exact hall i hlt
  · have hieq : i = pages.length := by omega
    subst hieq
    have h1 : (pages ++ [np]).getD pages.length (pageNew 0) = np := by
      have hg : (pages ++ [np]).get? pages.length = some np := List.get?_concat_length pages np
      show ((pages ++ [np]).get? pages.length).getD (pageNew 0) = np
      rw [hg]
      rfl
    have h2 : (recss ++ [[v]]).getD pages.length [] = [v] := by
      have hg : (recss ++ [[v]]).get? recss.length = some [v] := List.get?_concat_length recss [v]
      rw [hlen]
      show ((recss ++ [[v]]).get? recss.length).getD [] = [v]
      rw [hg]
      rfl
    rw [h1, h2]
    exact hnp

theorem smInv_set_last (pages : List Page) (recss : List (List (List Nat))) (p1 : Page)
    (v : List Nat) (n : Nat) (hn : n + 1 = pages.length) (hinv : SMInv pages recss)
    (hp1 : InsOnly n (recss.getD n [] ++ [v]) p1) :
    SMInv (pages.set n p1) (recss.set n (recss.getD n [] ++ [v])) := by
  obtain ⟨hlen, hall⟩ := hinv
  refine ⟨by simp [hlen], ?_⟩
  intro i hi
  rw [List.length_set] at hi
  by_cases hie : i = n
  · subst hie
    have h1 : (pages.set i p1).getD i (pageNew 0) = p1 := by
      show ((pages.set i p1).get? i).getD (pageNew 0) = p1
      rw [List.get?_set_eq_of_lt p1 (by omega)]
      rfl
    have h2 : (recss.set i (recss.getD i [] ++ [v])).getD i [] = recss.getD i [] ++ [v] := by
      show ((recss.set i (recss.getD i [] ++ [v])).get? i).getD [] = recss.getD i [] ++ [v]
      rw [List.get?_set_eq_of_lt _ (by omega)]
      rfl
    rw [h1, h2]
    exact hp1
  · have h1 : (pages.set n p1).getD i (pageNew 0) = pages.getD i (pageNew 0) := by
      show ((pages.set n p1).get? i).getD (pageNew 0) = (pages.get? i).getD (pageNew 0)
      rw [List.get?_set_ne p1 pages (fun hc => hie hc.symm)]
    have h2 : (recss.set n (recss.getD n [] ++ [v])).getD i [] = recss.getD i [] := by
      show ((recss.set n (recss.getD n [] ++ [v])).get? i).getD [] = (recss.get? i).getD []
      rw [List.get?_set_ne _ recss (fun hc => hie hc.symm)]
    rw [h1, h2]
    exact hall i hi

theorem insertAll_iter (vals : List (List Nat)) :
    ∀ (pages : List Page) (recss : List (List (List Nat))), SMInv pages recss →
    (∀ v ∈ vals, v.length + 14 < PAGE_SIZE) →
    noBackfillB pages vals = true →
    iterAllSM (insertAllSM pages vals) = iterAllSM pages ++ vals := by
  induction vals with
  | nil =>
    intro pages recss hinv hv hnb
    simp [insertAllSM, iterAllSM]
  | cons v vs ih =>
    intro pages recss hinv hv hnb
    have hv1 : v.length + 14 < PAGE_SIZE := hv v (List.mem_cons_self v vs)
    have hv' : ∀ w ∈ vs, w.length + 14 < PAGE_SIZE :=
      fun w hw => hv w (List.mem_cons_of_mem v hw)
    have hfold : insertAllSM pages (v :: vs) = insertAllSM (insertValueSM pages v).2 vs := rfl
    unfold noBackfillB at hnb
    cases hsc : ffScan v pages 0 with
    | none =>
      rw [hsc] at hnb
      cases hnb
    | some oR =>
      cases oR with
      | none =>
        rw [hsc] at hnb
        rcases insOnly_addValue_cases pages.length [] (pageNew pages.length) v
            (insOnly_nil pages.length) with ⟨hfit, hok, hins⟩ | ⟨hbig, _⟩
        swap
        · exfalso
          simp only [recsSize, List.map_nil, List.sum_nil, List.length_nil] at hbig
          omega
        cases hav : addValueFull (pageNew pages.length) v with
        | mk o np =>
          rw [hav] at hok hins
          have ho : o = AddOutcome.ok 0 := hok
          subst ho
          have hins' : InsOnly pages.length [v] np := hins
          have heqIns : insertValueSM pages v =
              (InsOutcome.res pages.length (some 0), pages ++ [np]) := by
            unfold insertValueSM
            rw [if_neg (by omega)]
            rw [hsc, hav]
          have h2 : (insertValueSM pages v).2 = pages ++ [np] := by rw [heqIns]
          rw [hfold, h2]
          rw [h2] at hnb
          rw [ih (pages ++ [np]) (recss ++ [[v]]) (smInv_append pages recss np v hinv hins')
            hv' hnb]
          rw [iterAll_append pages np, pageRecords_insOnly pages.length [v] np hins']
          simp
      | some r =>
        rw [hsc] at hnb
        simp only [Bool.and_eq_true, decide_eq_true_eq] at hnb
        obtain ⟨hle, hnb'⟩ := hnb
        obtain ⟨-, hltr, haddr⟩ := ffScan_some_spec v pages 0 r.1 r.2.1 r.2.2 (by rw [hsc])
        rw [Nat.sub_zero] at hltr haddr
        have hn1 : r.1 + 1 = pages.length := by omega
        have hcur := hinv.2 r.1 hltr
        rcases insOnly_addValue_cases r.1 (recss.getD r.1 []) (pages.getD r.1 (pageNew 0)) v
            hcur with ⟨hfit, hok, hins⟩ | ⟨hbig, hfull⟩
        swap
        · exfalso
          rw [haddr] at hfull
          simp at hfull
        rw [haddr] at hins
        have hins' : InsOnly r.1 (recss.getD r.1 [] ++ [v]) r.2.2 := hins
        have heqIns : insertValueSM pages v =
            (InsOutcome.res r.1 (some r.2.1), pages.set r.1 r.2.2) := by
          unfold insertValueSM
          rw [if_neg (by omega)]
          rw [hsc]
        have h2 : (insertValueSM pages v).2 = pages.set r.1 r.2.2 := by rw [heqIns]
        rw [hfold, h2]
        rw [h2] at hnb'
        rw [ih (pages.set r.1 r.2.2) (recss.set r.1 (recss.getD r.1 [] ++ [v]))
          (smInv_set_last pages recss r.2.2 v r.1 hn1 hinv hins') hv' hnb']
        rw [iterAll_set_last pages r.2.2 r.1 hn1]
        rw [pageRecords_insOnly r.1 (recss.getD r.1 [] ++ [v]) r.2.2 hins']
        obtain ⟨pcur, hgcur⟩ : ∃ q, pages.get? r.1 = some q := by
          cases hg : pages.get? r.1 with
          | none =>
            exfalso
            have := List.get?_eq_none.mp hg
            omega
          | some q => exact ⟨q, rfl⟩
        have hpcur : pages.getD r.1 (pageNew 0) = pcur := by
          show (pages.get? r.1).getD (pageNew 0) = pcur
          rw [hgcur]
          rfl
        rw [iterAll_take_last pages r.1 pcur hn1 hgcur]
        rw [← hpcur, pageRecords_insOnly r.1 (recss.getD r.1 []) _ hcur]
        simp

/-- C6 (amended): `insert_value` is first-fit over the existing pages in
ascending page-id order — the returned `page_id` is the least index of a page
accepting the value, and the current page count when none does (a fresh page
with that id) — and, for an insertion sequence on an initially empty container
whose records are each strictly below `P − H_FIX − H_SLOT` bytes and in which
no insert back-fills an earlier page, the iterator yields exactly the inserted
records in insertion order. -/
theorem c6_amended_theorem :
    (∀ (pages : List Page) (v : List Nat), (∀ p ∈ pages, furthestOkB p = true) →
      v.length ≤ PAGE_SIZE →
      insResPageId (insertValueSM pages v).1 = some (specFirstFitIdx pages v)) ∧
    (∀ vals : List (List Nat), (∀ v ∈ vals, v.length + 14 < PAGE_SIZE) →
      noBackfillB [] vals = true →
      iterAllSM (insertAllSM [] vals) = vals) := by
  constructor
  · exact fun pages v hwf hlen => insertValue_firstFit pages v hwf hlen
  · intro vals hv hnb
    have hinv : SMInv [] [] := ⟨rfl, fun i hi => absurd hi (by simp)⟩
    have hmain := insertAll_iter vals [] [] hinv hv hnb
    simpa [iterAllSM] using hmain

/-- Witness for C6: on an empty container the first insert goes to the fresh
page 0 as the first-fit rule prescribes, and inserting three one-byte records
yields an iterator stream equal to the insertion sequence. -/
theorem c6_witness :
    insResPageId (insertValueSM [] [1, 2]).1 = some (specFirstFitIdx [] [1, 2]) ∧
    iterAllSM (insertAllSM [] [[1], [2], [3]]) = [[1], [2], [3]] := by
  constructor
  · exact c6_amended_theorem.1 [] [1, 2] (by intro p hp; cases hp) (by decide)
  · exact c6_amended_theorem.2 [[1], [2], [3]] (by decide) (by decide)

theorem recsSize_singleton (v : List Nat) : recsSize [v] = v.length := by
  simp [recsSize]

/-- Counterexample to C6 as stated: the records of `c6vals` (2040, 2036 and 1
bytes) all satisfy the claimed bound `len ≤ P − H_FIX − H_SLOT`, yet the
iterator does not return them in insertion order: the third record back-fills
page 0 (first fit), so the stream is `[c6v1, [3], c6v2]`. -/
theorem c6_counterexample :
    (∀ v ∈ c6vals, v.length + 14 ≤ PAGE_SIZE) ∧
    iterAllSM (insertAllSM [] c6vals) ≠ c6vals := by
  have hlen1 : c6v1.length = 2040 := by
    unfold c6v1
    exact List.length_replicate 2040 1
  have hlen2 : c6v2.length = 2036 := by
    unfold c6v2
    exact List.length_replicate 2036 2
  have hl31 : ([3] : List Nat).length = 1 := rfl
  constructor
  · intro v hv
    unfold c6vals at hv
    rcases List.mem_cons.mp hv with h | hv
    · rw [h, hlen1]
      unfold PAGE_SIZE
      omega
    rcases List.mem_cons.mp hv with h | hv
    · rw [h, hlen2]
      unfold PAGE_SIZE
      omega
    rcases List.mem_cons.mp hv with h | hv
    · rw [h, hl31]
      unfold PAGE_SIZE
      omega
    · cases hv
  · -- step 1: insert c6v1 into the empty container
    rcases insOnly_addValue_cases 0 [] (pageNew 0) c6v1 (insOnly_nil 0) with
      ⟨hfit1, hok1, hins1⟩ | ⟨hbig1, _⟩
    swap
    · exfalso
      simp only [recsSize, List.map_nil, List.sum_nil, List.length_nil] at hbig1
      unfold PAGE_SIZE at hbig1
      omega
    cases hav1 : addValueFull (pageNew 0) c6v1 with
    | mk o1 p0 =>
      rw [hav1] at hok1 hins1
      have ho1 : o1 = AddOutcome.ok 0 := hok1
      subst ho1
      have hins1' : InsOnly 0 [c6v1] p0 := hins1
      have heq1 : insertValueSM [] c6v1 = (InsOutcome.res 0 (some 0), [p0]) := by
        unfold insertValueSM
        rw [if_neg (by unfold PAGE_SIZE; omega)]
        simp only [List.length_nil]
        have hse : ffScan c6v1 [] 0 = some none := rfl
        rw [hse, hav1]
        rfl
      -- step 2: c6v2 does not fit on p0, so it goes to a fresh page 1
      rcases insOnly_addValue_cases 0 [c6v1] p0 c6v2 hins1' with
        ⟨hfit2, _, _⟩ | ⟨hbig2, hfull2⟩
      · exfalso
        have hrs := recsSize_singleton c6v1
        have hl1 : ([c6v1] : List (List Nat)).length = 1 := rfl
        rw [hrs, hl1, hlen1, hlen2] at hfit2
        unfold PAGE_SIZE at hfit2
        omega
      rcases insOnly_addValue_cases 1 [] (pageNew 1) c6v2 (insOnly_nil 1) with
        ⟨hfit2b, hok2, hins2⟩ | ⟨hbig2b, _⟩
      swap
      · exfalso
        simp only [recsSize, List.map_nil, List.sum_nil, List.length_nil] at hbig2b
        unfold PAGE_SIZE at hbig2b
        omega
      cases hav2 : addValueFull (pageNew 1) c6v2 with
      | mk o2 np2 =>
        rw [hav2] at hok2 hins2
        have ho2 : o2 = AddOutcome.ok 0 := hok2
        subst ho2
        have hins2' : InsOnly 1 [c6v2] np2 := hins2
        have hscan2 : ffScan c6v2 [p0] 0 = some none := by
          have hu : ffScan c6v2 [p0] 0 =
              match addValueFull p0 c6v2 with
              | (AddOutcome.ok s, p1) => some (some (0, s, p1))
              | (AddOutcome.full, _) => ffScan c6v2 [] 1
              | (AddOutcome.panic, _) => none := rfl
          rw [hu, hfull2]
          rfl
        have heq2 : insertValueSM [p0] c6v2 = (InsOutcome.res 1 (some 0), [p0, np2]) := by
          unfold insertValueSM
          rw [if_neg (by unfold PAGE_SIZE; omega)]
          simp only [List.length_cons, List.length_nil, Nat.zero_add]
          rw [hscan2, hav2]
          rfl
        -- step 3: [3] fits on p0 (first fit), back-filling page 0
        rcases insOnly_addValue_cases 0 [c6v1] p0 [3] hins1' with
          ⟨hfit3, hok3, hins3⟩ | ⟨hbig3, _⟩
        swap
        · exfalso
          have hrs := recsSize_singleton c6v1
          have hl1 : ([c6v1] : List (List Nat)).length = 1 := rfl
          rw [hrs, hl1, hlen1, hl31] at hbig3
          unfold PAGE_SIZE at hbig3
          omega
        cases hav3 : addValueFull p0 [3] with
        | mk o3 p0x =>
          rw [hav3] at hok3 hins3
          have ho3 : o3 = AddOutcome.ok 1 := hok3
          subst ho3
          have hins3' : InsOnly 0 [c6v1, [3]] p0x := hins3
          have hscan3 : ffScan [3] [p0, np2] 0 = some (some (0, 1, p0x)) := by
            have hu : ffScan [3] [p0, np2] 0 =
                match addValueFull p0 [3] with
                | (AddOutcome.ok s, p1) => some (some (0, s, p1))
                | (AddOutcome.full, _) => ffScan [3] [np2] 1
                | (AddOutcome.panic, _) => none := rfl
            rw [hu, hav3]
          have heq3 : insertValueSM [p0, np2] [3] =
              (InsOutcome.res 0 (some 1), [p0x, np2]) := by
            unfold insertValueSM
            rw [if_neg (by unfold PAGE_SIZE; omega)]
            rw [hscan3]
            rfl
          -- assemble the fold
          have h12 : (insertValueSM [] c6v1).2 = [p0] := by rw [heq1]
          have h22 : (insertValueSM [p0] c6v2).2 = [p0, np2] := by rw [heq2]
          have h32 : (insertValueSM [p0, np2] [3]).2 = [p0x, np2] := by rw [heq3]
          have hall : insertAllSM [] c6vals = [p0x, np2] := by
            have hfold : insertAllSM [] c6vals =
                (insertValueSM (insertValueSM (insertValueSM [] c6v1).2 c6v2).2 [3]).2 := rfl
            rw [hfold, h12, h22, h32]
          have hiter : iterAllSM (insertAllSM [] c6vals) = [c6v1, [3], c6v2] := by
            rw [hall]
            show pageRecords p0x ++ (pageRecords np2 ++ []) = [c6v1, [3], c6v2]
            rw [pageRecords_insOnly 0 [c6v1, [3]] p0x hins3',
              pageRecords_insOnly 1 [c6v2] np2 hins2']
            rfl
          rw [hiter]
          intro habs
          have hc6 : c6vals = [c6v1, c6v2, [3]] := rfl
          rw [hc6] at habs
          have h1 := congrArg (fun l => (l.getD 1 []).length) habs
          simp only [List.getD_cons_succ, List.getD_cons_zero] at h1
          rw [hlen2] at h1
          rw [hl31] at h1
          omega
